import Mathlib

/-!
Verification of the graph model and the Eulerian/Hamiltonian circuit
finders of `ConsoleApplication23.cpp` (repository `AlgiLab4Wer`).

The C++ class `Graph` is embedded shallowly: the object state (vertex
count `n`, adjacency vectors `adj`, usage matrix `used`) becomes a
structure, mutation becomes explicit state passing, and the recursive
algorithms take a fuel argument that dominates the recursion depth of the
source (which is bounded by the vertex count for `hamiltonUtil` and by
the edge count for `euler`).
-/

namespace AlgiLab

/-- Error kinds named by the specification's error taxonomy (§7). -/
inductive GErr where
  | invalidSizeError
  | indexOutOfRangeError
deriving Repr, DecidableEq

/-- The graph model of `ConsoleApplication23.cpp` (lines 14–19): vertex
count `n`, per-vertex adjacency vectors `adj`, and the per-direction
edge-usage matrix `used`. -/
structure Graph where
  n : Nat
  adj : List (List Nat)
  used : List (List Bool)
deriving Repr, DecidableEq

/-- `adj[v]` as read by the traversal algorithms.  An out-of-range read is
undefined behaviour in the C++ source; the embedding returns `[]` there,
which is unreachable on well-formed graphs. -/
def adjOf (g : Graph) (v : Nat) : List Nat := g.adj.getD v []

/-- `used[v][u]` as read by the traversal algorithms.  An out-of-range
read is undefined behaviour in the C++ source; the embedding returns
`true` ("already used", hence skipped) there, which is unreachable on
well-formed graphs. -/
def usedAt (g : Graph) (v u : Nat) : Bool := (g.used.getD v []).getD u true

/-- `Graph(int size)` for a non-negative size (line 20): `size` empty
adjacency vectors and a `size × size` all-false `used` matrix. -/
def createG (n : Nat) : Graph :=
  { n := n, adj := List.replicate n [],
    used := List.replicate n (List.replicate n false) }

/-- The constructor `Graph(int size)` (line 20) over the full `int`
domain.  A negative `size` is converted to a huge `size_t` by the
`std::vector` size constructor, which then necessarily throws
(`std::length_error`, since the request exceeds `max_size()`); the
specification's error taxonomy names this construction failure
`InvalidSizeError`, and the embedding reports it under that name. -/
def create (size : Int) : Except GErr Graph :=
  if size < 0 then .error .invalidSizeError else .ok (createG size.toNat)

/-- `adj[x].push_back(y)`.  `none` models the undefined behaviour of an
out-of-range `operator[]` on the outer vector. -/
def pushAdj (g : Graph) (x y : Nat) : Option Graph :=
  if x < g.adj.length then
    some { g with adj := g.adj.set x (g.adj.getD x [] ++ [y]) }
  else none

/-- `used[x][y] = b` with both accesses bounds-modelled (`none` is the
out-of-range undefined behaviour). -/
def writeUsed (g : Graph) (x y : Nat) (b : Bool) : Option Graph :=
  if x < g.used.length then
    if y < (g.used.getD x []).length then
      some { g with used := g.used.set x ((g.used.getD x []).set y b) }
    else none
  else none

/-- `Graph::addEdge` (lines 92–100): appends `v` to `adj[u]`, then `u` to
`adj[v]`, then executes `used[u][v] = used[v][u] = false` (the inner
assignment `used[v][u] = false` is evaluated first).  The source performs
no bounds check: an out-of-range index hits undefined behaviour at the
corresponding vector access.  The embedding models that trap as
`Except.error` whose payload is the object state already mutated when the
trap occurs (the statements before the faulting access have executed). -/
def addEdge (g : Graph) (u v : Nat) : Except Graph Graph :=
  match pushAdj g u v with
  | none => .error g
  | some g1 =>
    match pushAdj g1 v u with
    | none => .error g1
    | some g2 =>
      match writeUsed g2 v u false with
      | none => .error g2
      | some g3 =>
        match writeUsed g3 u v false with
        | none => .error g3
        | some g4 => .ok g4

/-- `Graph::resetUsed` (lines 104–106). -/
def resetUsed (g : Graph) : Graph :=
  { g with used := List.replicate g.n (List.replicate g.n false) }

/-- The specification's graph lifecycle: `create` with a non-negative
size, then a sequence of `addEdge` calls (a trap aborts the build). -/
def buildM (n : Nat) (es : List (Nat × Nat)) : Except Graph Graph :=
  es.foldlM (fun g e => addEdge g e.1 e.2) (createG n)

/-! ### The Hamiltonian finder (lines 118–176) -/

/-- The neighbour loop of `Graph::hamiltonUtil` (lines 131–136), with the
recursive call abstracted as `rec`.  The object state and the
`visited`/`path` vectors are threaded explicitly; a failed recursive call
hands its (restored) state to the next iteration exactly as the shared
C++ vectors do. -/
def hamLoop
    (rec : Nat → Graph → List Bool → List Nat → Nat →
      Graph × Bool × List Bool × List Nat) :
    List Nat → Graph → List Bool → List Nat → Nat →
      Graph × Bool × List Bool × List Nat
  | [], g, visited, path, _ => (g, false, visited, path)
  | u :: rest, g, visited, path, depth =>
    if visited.getD u true then hamLoop rec rest g visited path depth
    else
      match rec u g visited path (depth + 1) with
      | (g', true, vis', p') => (g', true, vis', p')
      | (g', false, vis', p') => hamLoop rec rest g' vis' p' depth

/-- `Graph::hamiltonUtil` (lines 118–141): push `v`, mark it visited; if
`depth == n` and the first path entry occurs in `adj[v]`, close the cycle
and succeed; otherwise try each unvisited neighbour in adjacency order,
and on total failure unmark `v`, pop it and fail.  `fuel` dominates the
C++ recursion depth (at most `n`, one frame per path position); a
fuel-out returns the state unchanged, like a failed branch that never
pushed. -/
def hamiltonUtil (fuel : Nat) (v : Nat) (g : Graph) (visited : List Bool)
    (path : List Nat) (depth : Nat) : Graph × Bool × List Bool × List Nat :=
  match fuel with
  | 0 => (g, false, visited, path)
  | fuel + 1 =>
    let path1 := path ++ [v]
    let vis1 := visited.set v true
    if depth = g.n ∧ path1.headD 0 ∈ adjOf g v then
      (g, true, vis1, path1 ++ [path1.headD 0])
    else
      match hamLoop (hamiltonUtil fuel) (adjOf g v) g vis1 path1 depth with
      | (g', true, vis', p') => (g', true, vis', p')
      | (g', false, vis', p') => (g', false, vis'.set v false, p'.dropLast)

/-- `Graph::hamilton` (lines 145–176).  `path0` is the caller-supplied
path vector's prior content; every branch of the source clears it.  An
out-of-range start on a non-empty graph prints a diagnostic and returns
`false` (no exception is thrown); `n == 0` likewise returns `false` with
the cleared path.  The fuel `g.n + 1` strictly dominates the recursion
depth of the source. -/
def hamilton (g : Graph) (path0 : List Nat) (start : Nat) :
    Graph × Bool × List Nat :=
  if start < g.n then
    match hamiltonUtil (g.n + 1) start g (List.replicate g.n false) [] 1 with
    | (g', b, _, p) => (g', b, p)
  else (g, false, [])

/-! ### The Eulerian finder (lines 108–116) -/

/-- `used[x][y] = b` as a total state update; an out-of-range write (the
source's undefined behaviour, unreachable on well-formed graphs) is
dropped by `List.set`. -/
def setUsed (g : Graph) (x y : Nat) (b : Bool) : Graph :=
  { g with used := g.used.set x ((g.used.getD x []).set y b) }

/-- Line 111: `used[v][u] = used[u][v] = true` — the inner assignment to
`used[u][v]` executes first, then `used[v][u]`. -/
def markUsed (g : Graph) (v u : Nat) : Graph :=
  setUsed (setUsed g u v true) v u true

/-- The edge loop of `Graph::euler` (lines 109–114) with the recursive
call abstracted as `rec`: for each `u` of `adj[v]` in insertion order, if
`used[v][u]` is not set, mark both directions and recurse. -/
def eulerLoop (rec : Nat → Graph → List Nat → Graph × List Nat) (v : Nat) :
    List Nat → Graph → List Nat → Graph × List Nat
  | [], g, cycle => (g, cycle)
  | u :: rest, g, cycle =>
    if usedAt g v u then eulerLoop rec v rest g cycle
    else
      match rec u (markUsed g v u) cycle with
      | (g2, c2) => eulerLoop rec v rest g2 c2

/-- `Graph::euler` (lines 108–116): run the edge loop on `adj[v]`, then
append `v` to the cycle (post-order).  `fuel` dominates the C++ recursion
depth (each nested call first consumes an unused edge pair, so depth is
bounded by the edge count); fuel-out returns the state unchanged. -/
def eulerAux : Nat → Nat → Graph → List Nat → Graph × List Nat
  | 0, _, g, cycle => (g, cycle)
  | fuel + 1, v, g, cycle =>
    match eulerLoop (eulerAux fuel) v (adjOf g v) g cycle with
    | (g1, c1) => (g1, c1 ++ [v])

/-- The entry point `euler(v, cycle)` with fuel `n² + 1`, which strictly
dominates the number of unused `used` cells and hence the recursion
depth. -/
def euler (g : Graph) (v : Nat) (cycle : List Nat) : Graph × List Nat :=
  eulerAux (g.n * g.n + 1) v g cycle

/-- Modelled from the spec (§4.2), for the refinement claim about the
Eulerian finder's mechanism: "Define `visit(v)`: for each neighbor `u` in
v's adjacency sequence, in insertion order, if the directed edge (v, u)
is not yet marked used, mark both (v, u) and (u, v) used, then
recursively `visit(u)`; after exhausting v's neighbor list, append v to
the result sequence."  (Loop clause of `visit`.) -/
def visitLoop (rec : Nat → Graph → List Nat → Graph × List Nat) (v : Nat) :
    List Nat → Graph → List Nat → Graph × List Nat
  | [], g, cycle => (g, cycle)
  | u :: rest, g, cycle =>
    if usedAt g v u then visitLoop rec v rest g cycle
    else
      match rec u (markUsed g v u) cycle with
      | (g2, c2) => visitLoop rec v rest g2 c2

/-- Modelled from the spec (§4.2): the recursive `visit` of the previous
definition's quotation, post-order append included, with the same fuel
discipline as the embedding of the source. -/
def visitAux : Nat → Nat → Graph → List Nat → Graph × List Nat
  | 0, _, g, cycle => (g, cycle)
  | fuel + 1, v, g, cycle =>
    match visitLoop (visitAux fuel) v (adjOf g v) g cycle with
    | (g1, c1) => (g1, c1 ++ [v])

/-! ### Well-formedness and graph-shape predicates -/

/-- Well-formed object state: `adj` has `n` rows whose entries are
in-range vertices, and `used` is an `n × n` matrix.  Every graph the
lifecycle (`createG` + successful `addEdge`s) produces is well-formed. -/
def WF (g : Graph) : Prop :=
  g.adj.length = g.n ∧ (∀ l ∈ g.adj, ∀ x ∈ l, x < g.n) ∧
    g.used.length = g.n ∧ ∀ r ∈ g.used, r.length = g.n

instance (g : Graph) : Decidable (WF g) := by
  unfold WF; infer_instance

/-! ### Small list helpers -/

theorem getD_set_self {α : Type} (l : List α) (i : Nat) (a d : α)
    (h : i < l.length) : (l.set i a).getD i d = a := by
  simp [List.getD_eq_getElem?_getD, List.getElem?_set, h]

theorem getD_set_ne {α : Type} (l : List α) {i j : Nat} (a d : α)
    (h : i ≠ j) : (l.set i a).getD j d = l.getD j d := by
  simp [List.getD_eq_getElem?_getD, List.getElem?_set, h]

theorem getD_replicate {α : Type} {n i : Nat} (a d : α) :
    (List.replicate n a).getD i d = if i < n then a else d := by
  rw [List.getD_eq_getElem?_getD, List.getElem?_replicate]
  split <;> rfl

theorem getD_true_iff_some_false {l : List Bool} {u : Nat} :
    l.getD u true = false ↔ l[u]? = some false := by
  rw [List.getD_eq_getElem?_getD]
  cases hu : l[u]? with
  | none => simp
  | some b => simp

theorem getD_false_lt {l : List Bool} {u : Nat}
    (h : l.getD u true = false) : u < l.length := by
  by_contra hc
  push_neg at hc
  rw [getD_true_iff_some_false, List.getElem?_eq_none hc] at h
  cases h

theorem set_getD_false {l : List Bool} {u : Nat}
    (h : l.getD u true = false) : l.set u false = l := by
  have h2 : l[u]? = some false := getD_true_iff_some_false.mp h
  apply List.ext_getElem?
  intro n
  rw [List.getElem?_set]
  split
  · next he =>
    subst he
    rw [if_pos (getD_false_lt h), h2]
  · rfl

/-! ### Claim C6: construction -/

/-- C6: `Graph` construction with a negative vertex count fails with
`InvalidSizeError`; with a non-negative vertex count it produces that
many empty adjacency sequences and an all-false `edgeUsed` relation. -/
theorem create_spec (size : Int) :
    (size < 0 → create size = .error .invalidSizeError) ∧
    (0 ≤ size → create size = .ok (createG size.toNat) ∧
      (createG size.toNat).n = size.toNat ∧
      (createG size.toNat).adj = List.replicate size.toNat [] ∧
      (createG size.toNat).used =
        List.replicate size.toNat (List.replicate size.toNat false)) := by
  constructor
  · intro h
    simp [create, h]
  · intro h
    refine ⟨?_, rfl, rfl, rfl⟩
    simp [create, not_lt.mpr h]

/-- Witness for C6 at the concrete sizes `-2` and `2`. -/
theorem create_spec_witness :
    create (-2) = .error .invalidSizeError ∧ create 2 = .ok (createG (2 : Int).toNat) :=
  ⟨(create_spec (-2)).1 (by decide), ((create_spec 2).2 (by decide)).1⟩

/-! ### Claim C4: out-of-range `addEdge` -/

/-- C4 counterexample: `addEdge(0, 5)` on a fresh 2-vertex graph traps at
the second vector access with `5` already appended to vertex 0's
adjacency sequence — the graph is **not** left unchanged, refuting the
claim at this input. -/
theorem addEdge_oob_counterexample :
    addEdge (createG 2) 0 5 =
      .error { n := 2, adj := [[5], []],
               used := [[false, false], [false, false]] } ∧
    ({ n := 2, adj := [[5], []],
       used := [[false, false], [false, false]] } : Graph) ≠ createG 2 := by
  constructor
  · rfl
  · intro h
    cases h

/-- C4 amended: `addEdge` performs no bounds check (the source's
out-of-range vector access is undefined behaviour, modelled as a trap).
If the first endpoint `u` is out of range the trap occurs before any
mutation and the graph is unchanged; if `u` is in range but `v` is out of
range, the trap occurs after `v` has already been appended to `u`'s
adjacency sequence, so the graph is left partially mutated.  No
`IndexOutOfRangeError` is signalled in either case. -/
theorem addEdge_oob (g : Graph) (u v : Nat) (hlen : g.adj.length = g.n) :
    (g.n ≤ u → addEdge g u v = .error g) ∧
    (u < g.n → g.n ≤ v →
      addEdge g u v =
        .error { g with adj := g.adj.set u (g.adj.getD u [] ++ [v]) }) := by
  constructor
  · intro h
    have : ¬ u < g.adj.length := by omega
    simp [addEdge, pushAdj, this]
  · intro hu hv
    have hu' : u < g.adj.length := by omega
    have hv' : ¬ v < g.adj.length := by omega
    simp [addEdge, pushAdj, hu', hv', List.length_set]

/-- Witness for C4's amended theorem on a concrete 2-vertex graph, at
`addEdge(5, 0)` (first index out of range: unchanged) and `addEdge(0, 5)`
(second index out of range: partially mutated). -/
theorem addEdge_oob_witness :
    addEdge (createG 2) 5 0 = .error (createG 2) ∧
    addEdge (createG 2) 0 5 =
      .error { createG 2 with
               adj := (createG 2).adj.set 0 ((createG 2).adj.getD 0 [] ++ [5]) } :=
  ⟨(addEdge_oob (createG 2) 5 0 (by decide)).1 (by decide),
   (addEdge_oob (createG 2) 0 5 (by decide)).2 (by decide) (by decide)⟩

/-! ### Claim C5: out-of-range Hamiltonian start vertex -/

/-- The outcome of a `hamilton` call as seen by a caller.  The source's
`hamilton` (lines 145–156) contains no `throw`: an invalid start vertex
prints a diagnostic to `cerr` and returns `false` with the path cleared.
The `Except` wrapper makes the specification's "signals
`IndexOutOfRangeError`" statable as an `Except.error` outcome. -/
def hamiltonOutcome (g : Graph) (path0 : List Nat) (start : Nat) :
    Except GErr (Graph × Bool × List Nat) :=
  .ok (hamilton g path0 start)

/-- C5 counterexample: on a 1-vertex graph with start vertex 1 (out of
range, `vertexCount ≠ 0`), `hamilton` does **not** signal
`IndexOutOfRangeError`: it returns normally with failure and an empty
path, refuting the claim at this input. -/
theorem hamilton_oob_counterexample :
    hamiltonOutcome (createG 1) [] 1 ≠ .error GErr.indexOutOfRangeError ∧
    hamiltonOutcome (createG 1) [] 1 = .ok (createG 1, false, []) := by
  constructor
  · intro h
    cases h
  · rfl

/-- C5 amended: for **every** out-of-range start vertex (the
`vertexCount == 0` case included), `hamilton` signals nothing and returns
failure with an empty path. -/
theorem hamilton_oob (g : Graph) (p0 : List Nat) (s : Nat) (h : g.n ≤ s) :
    hamiltonOutcome g p0 s = .ok (g, false, []) := by
  simp [hamiltonOutcome, hamilton, not_lt.mpr h]

/-- Witness for C5's amended theorem: a 1-vertex graph with start 5. -/
theorem hamilton_oob_witness :
    hamiltonOutcome (createG 1) [] 5 = .ok (createG 1, false, []) :=
  hamilton_oob (createG 1) [] 5 (by decide)

/-! ### Frame and backtracking discipline of `hamiltonUtil` -/

/-- Unfolding equation for `hamLoop` on the empty neighbour list. -/
theorem hamLoop_nil (rec : Nat → Graph → List Bool → List Nat → Nat →
    Graph × Bool × List Bool × List Nat) (g : Graph) (visited : List Bool)
    (path : List Nat) (depth : Nat) :
    hamLoop rec [] g visited path depth = (g, false, visited, path) := rfl

/-- Unfolding equation for `hamLoop` on a nonempty neighbour list. -/
theorem hamLoop_cons (rec : Nat → Graph → List Bool → List Nat → Nat →
    Graph × Bool × List Bool × List Nat) (u : Nat) (rest : List Nat)
    (g : Graph) (visited : List Bool) (path : List Nat) (depth : Nat) :
    hamLoop rec (u :: rest) g visited path depth =
      if visited.getD u true then hamLoop rec rest g visited path depth
      else
        match rec u g visited path (depth + 1) with
        | (g', true, vis', p') => (g', true, vis', p')
        | (g', false, vis', p') => hamLoop rec rest g' vis' p' depth := rfl

/-- Unfolding equation for `hamiltonUtil` at positive fuel. -/
theorem hamiltonUtil_succ (fuel v : Nat) (g : Graph) (visited : List Bool)
    (path : List Nat) (depth : Nat) :
    hamiltonUtil (fuel + 1) v g visited path depth =
      (if depth = g.n ∧ (path ++ [v]).headD 0 ∈ adjOf g v then
        (g, true, visited.set v true, (path ++ [v]) ++ [(path ++ [v]).headD 0])
      else
        match hamLoop (hamiltonUtil fuel) (adjOf g v) g (visited.set v true)
            (path ++ [v]) depth with
        | (g', true, vis', p') => (g', true, vis', p')
        | (g', false, vis', p') => (g', false, vis'.set v false, p'.dropLast)) :=
  rfl

/-- `hamiltonUtil` never mutates the graph object, and a failed call
restores the `visited`/`path` vectors: it pops exactly the vertex it
pushed and clears exactly the visited mark it set (the source
unconditionally writes `visited[v] = false` on failure, which equals
restoration because callers only descend into unvisited vertices). -/
theorem hamiltonUtil_restore :
    ∀ (fuel v : Nat) (g : Graph) (visited : List Bool) (path : List Nat)
      (depth : Nat) (gR : Graph) (bR : Bool) (visR : List Bool) (pR : List Nat),
      hamiltonUtil fuel v g visited path depth = (gR, bR, visR, pR) →
      gR = g ∧
        (bR = false →
          (visR = visited.set v false ∨ visR = visited) ∧ pR = path) := by
  intro fuel
  induction fuel with
  | zero =>
    intro v g visited path depth gR bR visR pR h
    have h' : (g, false, visited, path) = ((gR, bR, visR, pR) :
        Graph × Bool × List Bool × List Nat) := h
    simp only [Prod.mk.injEq] at h'
    obtain ⟨h1, _, h3, h4⟩ := h'
    exact ⟨h1.symm, fun _ => ⟨Or.inr h3.symm, h4.symm⟩⟩
  | succ fuel IH =>
    intro v g visited path depth gR bR visR pR h
    have hloop : ∀ (ns : List Nat) (vis0 : List Bool) (q0 : List Nat)
        (gR' : Graph) (bR' : Bool) (visR' : List Bool) (pR' : List Nat),
        hamLoop (hamiltonUtil fuel) ns g vis0 q0 depth = (gR', bR', visR', pR') →
        gR' = g ∧ (bR' = false → visR' = vis0 ∧ pR' = q0) := by
      intro ns
      induction ns with
      | nil =>
        intro vis0 q0 gR' bR' visR' pR' hln
        rw [hamLoop_nil] at hln
        simp only [Prod.mk.injEq] at hln
        obtain ⟨h1, _, h3, h4⟩ := hln
        exact ⟨h1.symm, fun _ => ⟨h3.symm, h4.symm⟩⟩
      | cons u rest ihr =>
        intro vis0 q0 gR' bR' visR' pR' hln
        cases hg : vis0.getD u true with
        | true =>
          rw [hamLoop_cons, if_pos hg] at hln
          exact ihr vis0 q0 gR' bR' visR' pR' hln
        | false =>
          rcases hR : hamiltonUtil fuel u g vis0 q0 (depth + 1)
            with ⟨g', b', vis', p'⟩
          obtain ⟨hg', hrest⟩ := IH u g vis0 q0 (depth + 1) g' b' vis' p' hR
          cases b' with
          | true =>
            have key : hamLoop (hamiltonUtil fuel) (u :: rest) g vis0 q0 depth =
                (g', true, vis', p') := by
              rw [hamLoop_cons, if_neg (by rw [hg]; simp), hR]
            rw [key] at hln
            simp only [Prod.mk.injEq] at hln
            obtain ⟨h1, h2, _, _⟩ := hln
            exact ⟨h1.symm.trans hg', fun hb => by rw [← h2] at hb; cases hb⟩
          | false =>
            obtain ⟨hvis, hp⟩ := hrest rfl
            have hvis0 : vis' = vis0 := by
              rcases hvis with hx | hx
              · rw [set_getD_false hg] at hx; exact hx
              · exact hx
            have key : hamLoop (hamiltonUtil fuel) (u :: rest) g vis0 q0 depth =
                hamLoop (hamiltonUtil fuel) rest g' vis' p' depth := by
              rw [hamLoop_cons, if_neg (by rw [hg]; simp), hR]
            rw [key, hvis0, hp, hg'] at hln
            exact ihr vis0 q0 gR' bR' visR' pR' hln
    by_cases hcl : depth = g.n ∧ (path ++ [v]).headD 0 ∈ adjOf g v
    · rw [hamiltonUtil_succ, if_pos hcl] at h
      simp only [Prod.mk.injEq] at h
      obtain ⟨h1, h2, _, _⟩ := h
      exact ⟨h1.symm, fun hb => by rw [← h2] at hb; cases hb⟩
    · rcases hL : hamLoop (hamiltonUtil fuel) (adjOf g v) g (visited.set v true)
        (path ++ [v]) depth with ⟨g', b', vis', p'⟩
      obtain ⟨hg', hrest⟩ :=
        hloop (adjOf g v) (visited.set v true) (path ++ [v]) g' b' vis' p' hL
      cases b' with
      | true =>
        have key : hamiltonUtil (fuel + 1) v g visited path depth =
            (g', true, vis', p') := by
          rw [hamiltonUtil_succ, if_neg hcl, hL]
        rw [key] at h
        simp only [Prod.mk.injEq] at h
        obtain ⟨h1, h2, _, _⟩ := h
        exact ⟨h1.symm.trans hg', fun hb => by rw [← h2] at hb; cases hb⟩
      | false =>
        obtain ⟨hvis, hp⟩ := hrest rfl
        have key : hamiltonUtil (fuel + 1) v g visited path depth =
            (g', false, vis'.set v false, p'.dropLast) := by
          rw [hamiltonUtil_succ, if_neg hcl, hL]
        rw [key] at h
        simp only [Prod.mk.injEq] at h
        obtain ⟨h1, _, h3, h4⟩ := h
        refine ⟨h1.symm.trans hg', fun _ => ⟨Or.inl ?_, ?_⟩⟩
        · rw [← h3, hvis, List.set_set]
        · rw [← h4, hp, List.dropLast_concat]

/-- C9: the Hamiltonian finder never mutates the graph: the object state
returned by `hamilton` is the object state it was given, whatever the
outcome. -/
theorem hamilton_graph_frame (g : Graph) (p0 : List Nat) (s : Nat) :
    (hamilton g p0 s).1 = g := by
  unfold hamilton
  split
  · rcases hR : hamiltonUtil (g.n + 1) s g (List.replicate g.n false) [] 1
      with ⟨g', b, vis', p'⟩
    obtain ⟨hg', _⟩ :=
      hamiltonUtil_restore (g.n + 1) s g (List.replicate g.n false) [] 1
        g' b vis' p' hR
    exact hg'
  · rfl

/-- C10: if `hamilton` reports failure the returned path is empty
(`hamilton` clears the vector and `hamiltonUtil` pops everything it
pushed on every failed branch), and the result never depends on the
caller-supplied vector's prior content. -/
theorem hamilton_failure_clears (g : Graph) (p0 p0' : List Nat) (s : Nat) :
    ((hamilton g p0 s).2.1 = false → (hamilton g p0 s).2.2 = []) ∧
    hamilton g p0 s = hamilton g p0' s := by
  refine ⟨?_, rfl⟩
  unfold hamilton
  split
  · rcases hR : hamiltonUtil (g.n + 1) s g (List.replicate g.n false) [] 1
      with ⟨g', b, vis', p'⟩
    obtain ⟨_, hrest⟩ :=
      hamiltonUtil_restore (g.n + 1) s g (List.replicate g.n false) [] 1
        g' b vis' p' hR
    cases b with
    | true => intro hb; cases hb
    | false => intro _; exact (hrest rfl).2
  · intro _
    rfl

/-! ### Success invariant of the Hamiltonian search -/

theorem head?_append_left {α : Type} (l l' : List α) (h : l ≠ []) :
    (l ++ l').head? = l.head? := by
  cases l with
  | nil => exact absurd rfl h
  | cons a t => rfl

theorem concat_head?_headD {α : Type} (l : List α) (a d : α) :
    (l ++ [a]).head? = some ((l ++ [a]).headD d) := by
  cases l <;> rfl

theorem adjOf_mem_lt {g : Graph} (hlen : g.adj.length = g.n)
    (hadj : ∀ l ∈ g.adj, ∀ x ∈ l, x < g.n) {v u : Nat} (hv : v < g.n)
    (hu : u ∈ adjOf g v) : u < g.n := by
  have hv' : v < g.adj.length := by omega
  have he : adjOf g v = g.adj.get ⟨v, hv'⟩ := by
    rw [adjOf, List.getD_eq_getElem?_getD, List.getElem?_eq_getElem hv']
    rfl
  exact hadj _ (List.get_mem g.adj v hv') u (he ▸ hu)

/-- The backtracking invariant of `hamiltonUtil`: a successful call
entered with a consistent search state (visited marks exactly the path,
the path is a duplicate-free in-range adjacency chain, `depth` counts the
path) returns the closing of a Hamiltonian cycle: the input path extended
to `n + 1` entries whose first `n` are pairwise distinct in-range
vertices, whose last entry repeats the first, and whose consecutive pairs
are adjacency steps. -/
theorem hamiltonUtil_success (g : Graph) (hlen : g.adj.length = g.n)
    (hadj : ∀ l ∈ g.adj, ∀ x ∈ l, x < g.n) :
    ∀ (fuel v : Nat) (visited : List Bool) (path : List Nat) (depth : Nat)
      (gR : Graph) (visR : List Bool) (pR : List Nat),
      v < g.n →
      visited.length = g.n →
      (∀ x, x < g.n → (visited.getD x true = true ↔ x ∈ path)) →
      v ∉ path →
      path.Nodup →
      (∀ x ∈ path, x < g.n) →
      depth = path.length + 1 →
      List.Chain' (fun a b => b ∈ adjOf g a) (path ++ [v]) →
      hamiltonUtil fuel v g visited path depth = (gR, true, visR, pR) →
      ∃ ext, pR = (path ++ [v]) ++ ext ∧
        pR.length = g.n + 1 ∧
        pR.dropLast.Nodup ∧
        (∀ x ∈ pR.dropLast, x < g.n) ∧
        pR.getLast? = (path ++ [v]).head? ∧
        List.Chain' (fun a b => b ∈ adjOf g a) pR := by
  intro fuel
  induction fuel with
  | zero =>
    intro v visited path depth gR visR pR _ _ _ _ _ _ _ _ h
    have h' : (g, false, visited, path) =
        ((gR, true, visR, pR) : Graph × Bool × List Bool × List Nat) := h
    simp only [Prod.mk.injEq] at h'
    exact absurd h'.2.1 (by simp)
  | succ fuel IH =>
    intro v visited path depth gR visR pR hv hvlen hmk hvp hnd hpr hdep hch h
    have hvlt : v < visited.length := by omega
    have hmk1 : ∀ x, x < g.n →
        ((visited.set v true).getD x true = true ↔ x ∈ path ++ [v]) := by
      intro x hx
      rcases eq_or_ne x v with rfl | hne
      · rw [getD_set_self _ _ _ _ hvlt]
        simp
      · rw [getD_set_ne _ _ _ (Ne.symm hne), hmk x hx]
        simp [hne]
    have hnd1 : (path ++ [v]).Nodup := by
      rw [List.nodup_append]
      refine ⟨hnd, List.nodup_singleton v, ?_⟩
      intro a ha hb
      rw [List.mem_singleton] at hb
      subst hb
      exact hvp ha
    have hpr1 : ∀ x ∈ path ++ [v], x < g.n := by
      intro x hx
      rcases List.mem_append.mp hx with hx | hx
      · exact hpr x hx
      · rw [List.mem_singleton] at hx; subst hx; exact hv
    have hloop : ∀ (ns : List Nat),
        (∀ u ∈ ns, u ∈ adjOf g v) →
        ∀ (gR' : Graph) (visR' : List Bool) (pR' : List Nat),
        hamLoop (hamiltonUtil fuel) ns g (visited.set v true) (path ++ [v])
          depth = (gR', true, visR', pR') →
        ∃ ext, pR' = (path ++ [v]) ++ ext ∧
          pR'.length = g.n + 1 ∧
          pR'.dropLast.Nodup ∧
          (∀ x ∈ pR'.dropLast, x < g.n) ∧
          pR'.getLast? = (path ++ [v]).head? ∧
          List.Chain' (fun a b => b ∈ adjOf g a) pR' := by
      intro ns
      induction ns with
      | nil =>
        intro _ gR' visR' pR' hln
        rw [hamLoop_nil] at hln
        simp only [Prod.mk.injEq] at hln
        exact absurd hln.2.1 (by simp)
      | cons u rest ihr =>
        intro hsub gR' visR' pR' hln
        cases hg : (visited.set v true).getD u true with
        | true =>
          rw [hamLoop_cons, if_pos hg] at hln
          exact ihr (fun x hx => hsub x (List.mem_cons_of_mem u hx)) gR' visR' pR' hln
        | false =>
          have hu_adj : u ∈ adjOf g v := hsub u (List.mem_cons_self u rest)
          have hu_n : u < g.n := adjOf_mem_lt hlen hadj hv hu_adj
          rcases hR : hamiltonUtil fuel u g (visited.set v true) (path ++ [v])
            (depth + 1) with ⟨g', b', vis', p'⟩
          cases b' with
          | false =>
            obtain ⟨hg', hrest⟩ := hamiltonUtil_restore fuel u g
              (visited.set v true) (path ++ [v]) (depth + 1) g' false vis' p' hR
            obtain ⟨hvis, hp⟩ := hrest rfl
            have hvis0 : vis' = visited.set v true := by
              rcases hvis with hx | hx
              · rw [set_getD_false hg] at hx; exact hx
              · exact hx
            have key : hamLoop (hamiltonUtil fuel) (u :: rest) g
                (visited.set v true) (path ++ [v]) depth =
                hamLoop (hamiltonUtil fuel) rest g' vis' p' depth := by
              rw [hamLoop_cons, if_neg (by rw [hg]; simp), hR]
            rw [key, hvis0, hp, hg'] at hln
            exact ihr (fun x hx => hsub x (List.mem_cons_of_mem u hx)) gR' visR' pR' hln
          | true =>
            have key : hamLoop (hamiltonUtil fuel) (u :: rest) g
                (visited.set v true) (path ++ [v]) depth = (g', true, vis', p') := by
              rw [hamLoop_cons, if_neg (by rw [hg]; simp), hR]
            rw [key] at hln
            simp only [Prod.mk.injEq] at hln
            obtain ⟨h1, _, h3, h4⟩ := hln
            have hu_np1 : u ∉ path ++ [v] := by
              intro hmem
              have hun : (visited.set v true).getD u true = true :=
                (hmk1 u hu_n).mpr hmem
              rw [hg] at hun
              cases hun
            have hchu : List.Chain' (fun a b => b ∈ adjOf g a)
                ((path ++ [v]) ++ [u]) := by
              rw [List.chain'_append]
              refine ⟨hch, List.chain'_singleton u, ?_⟩
              intro x hx y hy
              rw [List.getLast?_concat] at hx
              simp only [Option.mem_def, Option.some.injEq] at hx hy
              subst hx
              rw [List.head?_cons] at hy
              cases hy
              exact hu_adj
            obtain ⟨ext, hext, hlen', hnodup', hpr', hlast', hch'⟩ :=
              IH u (visited.set v true) (path ++ [v]) (depth + 1) g' vis' p'
                hu_n (by simpa using hvlen) hmk1 hu_np1 hnd1 hpr1
                (by simp [hdep]) hchu hR
            subst h4
            refine ⟨u :: ext, ?_, hlen', hnodup', hpr', ?_, hch'⟩
            · rw [hext, List.append_assoc]
              rfl
            · rw [hlast', head?_append_left _ _ (by simp)]
    by_cases hcl : depth = g.n ∧ (path ++ [v]).headD 0 ∈ adjOf g v
    · rw [hamiltonUtil_succ, if_pos hcl] at h
      simp only [Prod.mk.injEq] at h
      obtain ⟨_, _, _, h4⟩ := h
      subst h4
      refine ⟨[(path ++ [v]).headD 0], rfl, ?_, ?_, ?_, ?_, ?_⟩
      · have : path.length + 1 = g.n := by rw [← hdep]; exact hcl.1
        simp [List.length_append]
        omega
      · rw [List.dropLast_concat]
        exact hnd1
      · rw [List.dropLast_concat]
        exact hpr1
      · rw [List.getLast?_concat, concat_head?_headD]
      · rw [List.chain'_append]
        refine ⟨hch, List.chain'_singleton _, ?_⟩
        intro x hx y hy
        rw [List.getLast?_concat] at hx
        simp only [Option.mem_def, Option.some.injEq] at hx hy
        subst hx
        rw [List.head?_cons] at hy
        cases hy
        exact hcl.2
    · rcases hL : hamLoop (hamiltonUtil fuel) (adjOf g v) g (visited.set v true)
        (path ++ [v]) depth with ⟨g', b', vis', p'⟩
      cases b' with
      | false =>
        have key : hamiltonUtil (fuel + 1) v g visited path depth =
            (g', false, vis'.set v false, p'.dropLast) := by
          rw [hamiltonUtil_succ, if_neg hcl, hL]
        rw [key] at h
        simp only [Prod.mk.injEq] at h
        exact absurd h.2.1 (by simp)
      | true =>
        have key : hamiltonUtil (fuel + 1) v g visited path depth =
            (g', true, vis', p') := by
          rw [hamiltonUtil_succ, if_neg hcl, hL]
        rw [key] at h
        simp only [Prod.mk.injEq] at h
        obtain ⟨h1, _, h3, h4⟩ := h
        subst h4
        exact hloop (adjOf g v) (fun u hu => hu) g' vis' p' hL

/-- The success postcondition of `hamilton` itself, in full (shared by
the claims about successful searches and about graphs that admit none):
on success the returned path has `n + 1` entries, starts and ends at the
start vertex, its first `n` entries are pairwise distinct in-range
vertices, and consecutive entries are adjacency steps. -/
theorem hamilton_success_full (g : Graph) (p0 : List Nat) (s : Nat)
    (hlen : g.adj.length = g.n) (hadj : ∀ l ∈ g.adj, ∀ x ∈ l, x < g.n)
    (hsucc : (hamilton g p0 s).2.1 = true) :
    (hamilton g p0 s).2.2.length = g.n + 1 ∧
    (hamilton g p0 s).2.2.head? = some s ∧
    (hamilton g p0 s).2.2.getLast? = some s ∧
    (hamilton g p0 s).2.2.dropLast.Nodup ∧
    (∀ x ∈ (hamilton g p0 s).2.2.dropLast, x < g.n) ∧
    List.Chain' (fun a b => b ∈ adjOf g a) (hamilton g p0 s).2.2 := by
  by_cases hs : s < g.n
  · rcases hR : hamiltonUtil (g.n + 1) s g (List.replicate g.n false) [] 1
      with ⟨g', b, vis', p'⟩
    have hham : hamilton g p0 s = (g', b, p') := by
      unfold hamilton
      rw [if_pos hs, hR]
    rw [hham] at hsucc ⊢
    cases b with
    | false => simp at hsucc
    | true =>
      have hmk0 : ∀ x, x < g.n →
          ((List.replicate g.n false).getD x true = true ↔ x ∈ ([] : List Nat)) := by
        intro x hx
        rw [getD_replicate, if_pos hx]
        simp
      obtain ⟨ext, hext, hlen', hnodup', hpr', hlast', hch'⟩ :=
        hamiltonUtil_success g hlen hadj (g.n + 1) s (List.replicate g.n false)
          [] 1 g' vis' p' hs (by simp) hmk0 (by simp) List.nodup_nil
          (by simp) rfl (by simpa using List.chain'_singleton s) hR
      refine ⟨hlen', ?_, ?_, hnodup', hpr', hch'⟩
      · show p'.head? = some s
        rw [hext]
        rfl
      · show p'.getLast? = some s
        rw [hlast']
        rfl
  · unfold hamilton at hsucc
    rw [if_neg hs] at hsucc
    simp at hsucc

/-- C1: whenever the Hamiltonian finder reports success, the returned
path has `vertexCount + 1` entries, its first and last entries both equal
the start vertex, all entries except the repeated last one are pairwise
distinct, and every consecutive pair is an adjacency step of the graph. -/
theorem hamilton_success_spec (g : Graph) (p0 : List Nat) (s : Nat)
    (hlen : g.adj.length = g.n) (hadj : ∀ l ∈ g.adj, ∀ x ∈ l, x < g.n)
    (hsucc : (hamilton g p0 s).2.1 = true) :
    (hamilton g p0 s).2.2.length = g.n + 1 ∧
    (hamilton g p0 s).2.2.head? = some s ∧
    (hamilton g p0 s).2.2.getLast? = some s ∧
    (hamilton g p0 s).2.2.dropLast.Nodup ∧
    List.Chain' (fun a b => b ∈ adjOf g a) (hamilton g p0 s).2.2 := by
  obtain ⟨h1, h2, h3, h4, _, h6⟩ := hamilton_success_full g p0 s hlen hadj hsucc
  exact ⟨h1, h2, h3, h4, h6⟩

/-- The triangle graph, built by `addEdge(0,1)`, `addEdge(0,2)`,
`addEdge(1,2)` on a 3-vertex graph. -/
def triangleG : Graph :=
  { n := 3, adj := [[1, 2], [0, 2], [0, 1]],
    used := List.replicate 3 (List.replicate 3 false) }

/-- Witness for C1 on the triangle, where the search from vertex 0
succeeds with `[0, 1, 2, 0]`. -/
theorem hamilton_success_spec_witness :
    (hamilton triangleG [] 0).2.2.length = triangleG.n + 1 ∧
    (hamilton triangleG [] 0).2.2.head? = some 0 ∧
    (hamilton triangleG [] 0).2.2.getLast? = some 0 ∧
    (hamilton triangleG [] 0).2.2.dropLast.Nodup ∧
    List.Chain' (fun a b => b ∈ adjOf triangleG a) (hamilton triangleG [] 0).2.2 :=
  hamilton_success_spec triangleG [] 0 (by decide) (by decide) (by decide)

/-- Every entry of `l.dropLast` has an `R`-successor in a chain. -/
theorem chain'_dropLast_succ {α : Type} {R : α → α → Prop} :
    ∀ {l : List α}, List.Chain' R l → ∀ a ∈ l.dropLast, ∃ b, R a b := by
  intro l
  induction l with
  | nil =>
    intro _ a ha
    simp at ha
  | cons x t ih =>
    intro hch a ha
    cases t with
    | nil => simp at ha
    | cons y t' =>
      rw [List.dropLast_cons₂, List.mem_cons] at ha
      rw [List.chain'_cons] at hch
      rcases ha with rfl | ha
      · exact ⟨y, hch.1⟩
      · exact ih hch.2 a ha

/-- C8: on any graph with more than one vertex that has an isolated
vertex (empty adjacency sequence), the Hamiltonian finder reports
not-found for every start vertex. -/
theorem hamilton_isolated_not_found (g : Graph) (p0 : List Nat) (s w : Nat)
    (hlen : g.adj.length = g.n) (hadj : ∀ l ∈ g.adj, ∀ x ∈ l, x < g.n)
    (hn : 1 < g.n) (hw : w < g.n) (hiso : adjOf g w = []) :
    (hamilton g p0 s).2.1 = false := by
  cases hb : (hamilton g p0 s).2.1 with
  | false => rfl
  | true =>
    exfalso
    obtain ⟨hlenp, _, _, hnd, hpr, hch⟩ :=
      hamilton_success_full g p0 s hlen hadj hb
    have hdl : (hamilton g p0 s).2.2.dropLast.length = g.n := by
      rw [List.length_dropLast, hlenp]
      rfl
    have htf : (hamilton g p0 s).2.2.dropLast.toFinset = Finset.range g.n := by
      apply Finset.eq_of_subset_of_card_le
      · intro x hx
        rw [Finset.mem_range]
        exact hpr x (List.mem_toFinset.mp hx)
      · rw [List.toFinset_card_of_nodup hnd, hdl, Finset.card_range]
    have hwmem : w ∈ (hamilton g p0 s).2.2.dropLast := by
      have : w ∈ (hamilton g p0 s).2.2.dropLast.toFinset := by
        rw [htf, Finset.mem_range]
        exact hw
      exact List.mem_toFinset.mp this
    obtain ⟨b, hb'⟩ := chain'_dropLast_succ hch w hwmem
    rw [hiso] at hb'
    cases hb'

/-- A 3-vertex graph with the single edge (0, 1): vertex 2 is isolated. -/
def isolatedG : Graph :=
  { n := 3, adj := [[1], [0], []],
    used := List.replicate 3 (List.replicate 3 false) }

/-- Witness for C8: the isolated-vertex graph, start vertex 0. -/
theorem hamilton_isolated_not_found_witness :
    (hamilton isolatedG [] 0).2.1 = false :=
  hamilton_isolated_not_found isolatedG [] 0 2 (by decide) (by decide)
    (by decide) (by decide) (by decide)

/-- Two disjoint triangles (vertices 0–2 and 3–5): the spec's concrete
not-found scenario. -/
def twoTrianglesG : Graph :=
  { n := 6, adj := [[1, 2], [0, 2], [0, 1], [4, 5], [3, 5], [3, 4]],
    used := List.replicate 6 (List.replicate 6 false) }

/-- Witness for C10 on the two-triangle graph: the search fails from
vertex 0 and the returned path is empty, independently of the prior
content `[9, 9]` of the caller's vector. -/
theorem hamilton_failure_clears_witness :
    (hamilton twoTrianglesG [9, 9] 0).2.1 = false ∧
    (hamilton twoTrianglesG [9, 9] 0).2.2 = [] ∧
    hamilton twoTrianglesG [9, 9] 0 = hamilton twoTrianglesG [] 0 := by
  refine ⟨by decide, (hamilton_failure_clears twoTrianglesG [9, 9] [] 0).1 (by decide),
    (hamilton_failure_clears twoTrianglesG [9, 9] [] 0).2⟩

/-! ### Successful `addEdge` as a total transformation -/

/-- The effect of a successful (in-range) `addEdge(u, v)` call on the
object state, as a total function: append `v` to `adj[u]`, append `u` to
`adj[v]`, clear `used[v][u]`, then clear `used[u][v]`. -/
def addEdgeT (g : Graph) (u v : Nat) : Graph :=
  { g with
    adj := (g.adj.set u (g.adj.getD u [] ++ [v])).set v
      ((g.adj.set u (g.adj.getD u [] ++ [v])).getD v [] ++ [u]),
    used := ((g.used.set v ((g.used.getD v []).set u false)).set u
      (((g.used.set v ((g.used.getD v []).set u false)).getD u []).set v false)) }

/-- On a well-formed graph, a successful `addEdge` call is exactly an
in-range `addEdgeT` step. -/
theorem addEdge_ok_eq {g g' : Graph} {u v : Nat} (hwf : WF g)
    (h : addEdge g u v = .ok g') : u < g.n ∧ v < g.n ∧ g' = addEdgeT g u v := by
  obtain ⟨ha, _, hu1, hu2⟩ := hwf
  have hrowlen : ∀ i, i < g.used.length → (g.used.getD i []).length = g.n := by
    intro i hi
    rw [List.getD_eq_getElem?_getD, List.getElem?_eq_getElem hi]
    exact hu2 _ (List.getElem_mem hi)
  by_cases h1 : u < g.adj.length
  · by_cases h2 : v < g.adj.length
    · have c3 : v < g.used.length := by omega
      have c4 : u < (g.used.getD v []).length := by rw [hrowlen v c3]; omega
      have c5 : u < g.used.length := by omega
      refine ⟨by omega, by omega, ?_⟩
      rcases eq_or_ne u v with rfl | hne
      · have c6 : u < ((g.used.set u ((g.used.getD u []).set u false)).getD u []).length := by
          rw [getD_set_self _ _ _ _ c3, List.length_set]
          exact c4
        simp only [addEdge, pushAdj, writeUsed, List.length_set, h1, h2, c3, c4, c5, c6,
          if_true, if_pos] at h
        rw [← Except.ok.inj h]
        rfl
      · have c6 : v < ((g.used.set v ((g.used.getD v []).set u false)).getD u []).length := by
          rw [getD_set_ne _ _ _ (Ne.symm hne), hrowlen u c5]
          omega
        simp only [addEdge, pushAdj, writeUsed, List.length_set, h1, h2, c3, c4, c5, c6,
          if_true, if_pos] at h
        rw [← Except.ok.inj h]
        rfl
    · simp [addEdge, pushAdj, h1, h2, List.length_set] at h
  · simp [addEdge, pushAdj, h1] at h

theorem count_concat_eq (l : List Nat) (x y : Nat) :
    (l ++ [x]).count y = l.count y + (if x = y then 1 else 0) := by
  rw [List.count_append, List.count_singleton']

/-- The count delta of one `addEdgeT` step on the adjacency rows. -/
theorem addEdgeT_count (g : Graph) (u v : Nat) (hu : u < g.adj.length)
    (hv : v < g.adj.length) (a b : Nat) :
    (adjOf (addEdgeT g u v) a).count b =
      (adjOf g a).count b + (if a = u ∧ b = v then 1 else 0) +
        (if a = v ∧ b = u then 1 else 0) := by
  have e1 : a = u → (if v = b then 1 else 0) =
      (if a = u ∧ b = v then 1 else 0) := by
    intro hau
    by_cases hb : v = b
    · rw [if_pos hb, if_pos ⟨hau, hb.symm⟩]
    · rw [if_neg hb, if_neg (fun hx => hb hx.2.symm)]
  have e2 : a = v → (if u = b then 1 else 0) =
      (if a = v ∧ b = u then 1 else 0) := by
    intro hav
    by_cases hb : u = b
    · rw [if_pos hb, if_pos ⟨hav, hb.symm⟩]
    · rw [if_neg hb, if_neg (fun hx => hb hx.2.symm)]
  by_cases hau : a = u <;> by_cases hav : a = v
  · have hrow : adjOf (addEdgeT g u v) a = (adjOf g a ++ [v]) ++ [u] := by
      unfold addEdgeT adjOf
      have huv : u = v := hau.symm.trans hav
      rw [← huv, ← hau]
      rw [getD_set_self _ _ _ _ (by rw [List.length_set]; exact hau ▸ hu),
        getD_set_self _ _ _ _ (hau ▸ hu)]
    rw [hrow, count_concat_eq, count_concat_eq, e1 hau, e2 hav]
  · have hrow : adjOf (addEdgeT g u v) a = adjOf g a ++ [v] := by
      unfold addEdgeT adjOf
      rw [getD_set_ne _ _ _ (fun hx => hav hx.symm), ← hau,
        getD_set_self _ _ _ _ (hau ▸ hu)]
    rw [hrow, count_concat_eq, if_neg (fun hx : a = v ∧ b = u => hav hx.1),
      e1 hau]
    omega
  · have hrow : adjOf (addEdgeT g u v) a = adjOf g a ++ [u] := by
      unfold addEdgeT adjOf
      rw [← hav, getD_set_self _ _ _ _ (by rw [List.length_set]; exact hav ▸ hv),
        getD_set_ne _ _ _ (fun hx => hau hx.symm)]
    rw [hrow, count_concat_eq, if_neg (fun hx : a = u ∧ b = v => hau hx.1),
      e2 hav]
    omega
  · have hrow : adjOf (addEdgeT g u v) a = adjOf g a := by
      unfold addEdgeT adjOf
      rw [getD_set_ne _ _ _ (fun hx => hav hx.symm),
        getD_set_ne _ _ _ (fun hx => hau hx.symm)]
    rw [hrow, if_neg (fun hx : a = u ∧ b = v => hau hx.1),
      if_neg (fun hx : a = v ∧ b = u => hav hx.1)]
    omega

/-- Symmetry of the adjacency multiset, the invariant of claim C7. -/
def symAdj (g : Graph) : Prop :=
  ∀ a b : Nat, (adjOf g a).count b = (adjOf g b).count a

theorem symAdj_createG (n : Nat) : symAdj (createG n) := by
  intro a b
  unfold adjOf createG
  rw [getD_replicate, getD_replicate]
  split <;> split <;> rfl

theorem addEdgeT_symAdj {g : Graph} {u v : Nat} (hu : u < g.adj.length)
    (hv : v < g.adj.length) (hs : symAdj g) : symAdj (addEdgeT g u v) := by
  intro a b
  rw [addEdgeT_count g u v hu hv a b, addEdgeT_count g u v hu hv b a, hs a b]
  have e1 : (if a = u ∧ b = v then 1 else 0) =
      (if b = v ∧ a = u then 1 else 0) := by
    by_cases h : a = u ∧ b = v
    · rw [if_pos h, if_pos ⟨h.2, h.1⟩]
    · rw [if_neg h, if_neg (fun hx => h ⟨hx.2, hx.1⟩)]
  have e2 : (if a = v ∧ b = u then 1 else 0) =
      (if b = u ∧ a = v then 1 else 0) := by
    by_cases h : a = v ∧ b = u
    · rw [if_pos h, if_pos ⟨h.2, h.1⟩]
    · rw [if_neg h, if_neg (fun hx => h ⟨hx.2, hx.1⟩)]
  omega

theorem getD_mem {α : Type} (l : List α) (i : Nat) (d : α)
    (h : i < l.length) : l.getD i d ∈ l := by
  rw [List.getD_eq_getElem?_getD, List.getElem?_eq_getElem h]
  exact List.getElem_mem h

/-- Well-formedness is preserved by an in-range `addEdgeT` step. -/
theorem addEdgeT_WF {g : Graph} {u v : Nat} (hu : u < g.n) (hv : v < g.n)
    (hwf : WF g) : WF (addEdgeT g u v) := by
  obtain ⟨ha, hb, hu1, hu2⟩ := hwf
  have hu' : u < g.adj.length := by omega
  have hv' : v < g.adj.length := by omega
  refine ⟨?_, ?_, ?_, ?_⟩
  · simp [addEdgeT, List.length_set, ha]
  · intro l hl x hx
    have hA1 : ∀ l' ∈ g.adj.set u (g.adj.getD u [] ++ [v]), ∀ y ∈ l', y < g.n := by
      intro l' hl' y hy
      rcases List.mem_or_eq_of_mem_set hl' with h3 | rfl
      · exact hb _ h3 y hy
      · rcases List.mem_append.mp hy with h4 | h4
        · exact hb _ (getD_mem g.adj u [] hu') y h4
        · rw [List.mem_singleton] at h4
          subst h4
          exact hv
    rcases List.mem_or_eq_of_mem_set hl with h2 | rfl
    · exact hA1 _ h2 x hx
    · rcases List.mem_append.mp hx with h4 | h4
      · exact hA1 _ (getD_mem _ v [] (by rw [List.length_set]; omega)) x h4
      · rw [List.mem_singleton] at h4
        subst h4
        exact hu
  · simp [addEdgeT, List.length_set, hu1]
  · intro r hr
    have hU1 : ∀ r' ∈ g.used.set v ((g.used.getD v []).set u false),
        r'.length = g.n := by
      intro r' hr'
      rcases List.mem_or_eq_of_mem_set hr' with h3 | rfl
      · exact hu2 _ h3
      · rw [List.length_set]
        exact hu2 _ (getD_mem g.used v [] (by omega))
    rcases List.mem_or_eq_of_mem_set hr with h2 | rfl
    · exact hU1 _ h2
    · rw [List.length_set]
      exact hU1 _ (getD_mem _ u [] (by rw [List.length_set]; omega))

theorem WF_createG (n : Nat) : WF (createG n) := by
  refine ⟨by simp [createG], ?_, by simp [createG], ?_⟩
  · intro l hl x hx
    rw [createG] at hl
    have := List.eq_of_mem_replicate hl
    subst this
    cases hx
  · intro r hr
    rw [createG] at hr
    have := List.eq_of_mem_replicate hr
    subst this
    simp [createG]

/-- Invariants that hold of every graph the lifecycle can build:
well-formedness and symmetric adjacency. -/
theorem buildM_inv :
    ∀ (es : List (Nat × Nat)) (g0 g : Graph), WF g0 → symAdj g0 →
      es.foldlM (fun g e => addEdge g e.1 e.2) g0 = .ok g →
      WF g ∧ symAdj g := by
  intro es
  induction es with
  | nil =>
    intro g0 g hwf hs h
    simp only [List.foldlM_nil] at h
    have hg : g0 = g := by
      have h' : (Except.ok g0 : Except Graph Graph) = .ok g := h
      exact Except.ok.inj h'
    subst hg
    exact ⟨hwf, hs⟩
  | cons e es ih =>
    intro g0 g hwf hs h
    rw [List.foldlM_cons] at h
    cases hae : addEdge g0 e.1 e.2 with
    | error g1 =>
      rw [hae] at h
      have h' : (Except.error g1 : Except Graph Graph) = .ok g := h
      cases h'
    | ok g1 =>
      rw [hae] at h
      have h : es.foldlM (fun g e => addEdge g e.1 e.2) g1 = .ok g := h
      obtain ⟨hu, hv, hg1⟩ := addEdge_ok_eq hwf hae
      subst hg1
      have hu' : e.1 < g0.adj.length := by
        have := hwf.1
        omega
      have hv' : e.2 < g0.adj.length := by
        have := hwf.1
        omega
      exact ih _ g (addEdgeT_WF hu hv hwf) (addEdgeT_symAdj hu' hv' hs) h

/-- C7: adjacency symmetry is an invariant of the lifecycle: after any
`create` and any sequence of successful `addEdge` calls, vertex `v`
occurs in `u`'s adjacency sequence exactly as many times as `u` occurs in
`v`'s, for every pair. -/
theorem buildM_adjacency_symmetric (n : Nat) (es : List (Nat × Nat))
    (g : Graph) (h : buildM n es = .ok g) :
    ∀ u v : Nat, (adjOf g u).count v = (adjOf g v).count u :=
  (buildM_inv es (createG n) g (WF_createG n) (symAdj_createG n) h).2

/-- Witness for C7: the triangle build, checked at the pair (0, 2). -/
theorem buildM_adjacency_symmetric_witness :
    buildM 3 [(0, 1), (0, 2), (1, 2)] = .ok triangleG ∧
    (adjOf triangleG 0).count 2 = (adjOf triangleG 2).count 0 :=
  ⟨by rfl,
   buildM_adjacency_symmetric 3 [(0, 1), (0, 2), (1, 2)] triangleG (by rfl) 0 2⟩

/-! ### Infrastructure for the Eulerian analysis -/

/-- The directed steps (consecutive pairs) of a vertex sequence. -/
def steps (p : List Nat) : List (Nat × Nat) := p.zip p.tail

/-- Two directed steps denote the same undirected edge. -/
def sameE (s t : Nat × Nat) : Prop := t = s ∨ t = (s.2, s.1)

instance (s t : Nat × Nat) : Decidable (sameE s t) := by
  unfold sameE; infer_instance

/-- The unused degree of a vertex: its adjacency entries whose outgoing
usage flag is still clear. -/
def ud (g : Graph) (x : Nat) : Nat :=
  (adjOf g x).countP (fun z => !(usedAt g x z))

/-- Number of clear cells of the `used` matrix: the measure that strictly
shrinks at every marking, bounding the recursion depth of `euler`. -/
def fc (g : Graph) : Nat := (g.used.map (fun r => r.countP (fun b => !b))).sum

/-- Shape hypotheses of the Eulerian analysis: well-formedness, a
symmetric usage matrix, symmetric adjacency, no parallel edges, and each
self-loop present at most once (self adjacency count 0 or 2). -/
def EulerOK (g : Graph) : Prop :=
  WF g ∧ (∀ a b, usedAt g a b = usedAt g b a) ∧
    (∀ a b, (adjOf g a).count b = (adjOf g b).count a) ∧
    (∀ a b, a ≠ b → (adjOf g a).count b ≤ 1) ∧
    (∀ a, (adjOf g a).count a = 0 ∨ (adjOf g a).count a = 2)

theorem WF_used_row {g : Graph} (hwf : WF g) :
    ∀ i, i < g.used.length → (g.used.getD i []).length = g.n :=
  fun i hi => hwf.2.2.2 _ (getD_mem _ i [] hi)

theorem usedAt_bounds {g : Graph} {v u : Nat} (h : usedAt g v u = false) :
    v < g.used.length ∧ u < (g.used.getD v []).length := by
  have hu : u < (g.used.getD v []).length := getD_false_lt h
  refine ⟨?_, hu⟩
  by_contra hc
  push_neg at hc
  have hrow : g.used.getD v [] = [] := by
    rw [List.getD_eq_getElem?_getD, List.getElem?_eq_none hc]
    rfl
  rw [hrow] at hu
  cases hu

theorem usedAt_setUsed_self {g : Graph} {x y : Nat} (b : Bool)
    (hx : x < g.used.length) (hy : y < (g.used.getD x []).length) :
    usedAt (setUsed g x y b) x y = b := by
  unfold usedAt setUsed
  rw [getD_set_self _ _ _ _ hx, getD_set_self _ _ _ _ hy]

theorem usedAt_setUsed_other {g : Graph} {x y a c : Nat} (b : Bool)
    (h : ¬(a = x ∧ c = y)) :
    usedAt (setUsed g x y b) a c = usedAt g a c := by
  unfold usedAt setUsed
  by_cases hax : a = x
  · have hc : c ≠ y := fun hcy => h ⟨hax, hcy⟩
    rw [hax]
    by_cases hx : x < g.used.length
    · rw [getD_set_self _ _ _ _ hx, getD_set_ne _ _ _ (fun h' => hc h'.symm)]
    · rw [List.set_eq_of_length_le (by omega)]
  · rw [getD_set_ne _ _ _ (fun h' => hax h'.symm)]

theorem usedAt_markUsed_vu {g : Graph} {v u : Nat}
    (hg : usedAt g v u = false) :
    usedAt (markUsed g v u) v u = true := by
  obtain ⟨hv, hu⟩ := usedAt_bounds hg
  have hL : (setUsed g u v true).used.length = g.used.length := by
    unfold setUsed
    exact List.length_set _ _ _
  have hR : ((setUsed g u v true).used.getD v []).length =
      (g.used.getD v []).length := by
    unfold setUsed
    by_cases huv : u = v
    · rw [huv, getD_set_self _ _ _ _ hv, List.length_set]
    · rw [getD_set_ne _ _ _ huv]
  exact usedAt_setUsed_self true (by rw [hL]; exact hv) (by rw [hR]; exact hu)

theorem usedAt_markUsed_uv {g : Graph} {v u : Nat} (hwf : WF g)
    (hg : usedAt g v u = false) :
    usedAt (markUsed g v u) u v = true := by
  obtain ⟨hv, hurow⟩ := usedAt_bounds hg
  by_cases huv : u = v
  · rw [huv]
    rw [huv] at hg
    exact usedAt_markUsed_vu hg
  · have hun : u < g.used.length := by
      have h1 := WF_used_row hwf v hv
      have h2 := hwf.2.2.1
      omega
    have hvrow : v < (g.used.getD u []).length := by
      rw [WF_used_row hwf u hun]
      have h2 := hwf.2.2.1
      omega
    unfold markUsed
    rw [usedAt_setUsed_other true (fun hx => huv hx.1)]
    exact usedAt_setUsed_self true hun hvrow

theorem usedAt_markUsed_other {g : Graph} {v u a c : Nat}
    (h1 : ¬(a = v ∧ c = u)) (h2 : ¬(a = u ∧ c = v)) :
    usedAt (markUsed g v u) a c = usedAt g a c := by
  unfold markUsed
  rw [usedAt_setUsed_other true h1, usedAt_setUsed_other true h2]

theorem usedAt_markUsed_mono {g : Graph} {v u : Nat} (hwf : WF g)
    (hg : usedAt g v u = false) {a c : Nat} (h : usedAt g a c = true) :
    usedAt (markUsed g v u) a c = true := by
  by_cases h1 : a = v ∧ c = u
  · rw [h1.1, h1.2]
    exact usedAt_markUsed_vu hg
  · by_cases h2 : a = u ∧ c = v
    · rw [h2.1, h2.2]
      exact usedAt_markUsed_uv hwf hg
    · rw [usedAt_markUsed_other h1 h2]
      exact h

theorem markUsed_marks {g : Graph} {v u : Nat} (hwf : WF g)
    (hg : usedAt g v u = false) (a c : Nat) :
    usedAt (markUsed g v u) a c = true ↔
      (usedAt g a c = true ∨ sameE (v, u) (a, c)) := by
  by_cases h1 : a = v ∧ c = u
  · rw [h1.1, h1.2]
    exact ⟨fun _ => Or.inr (Or.inl rfl), fun _ => usedAt_markUsed_vu hg⟩
  · by_cases h2 : a = u ∧ c = v
    · rw [h2.1, h2.2]
      exact ⟨fun _ => Or.inr (Or.inr rfl), fun _ => usedAt_markUsed_uv hwf hg⟩
    · have hs : ¬ sameE (v, u) (a, c) := by
        rintro (h | h)
        · exact h1 ⟨congrArg Prod.fst h, congrArg Prod.snd h⟩
        · exact h2 ⟨congrArg Prod.fst h, congrArg Prod.snd h⟩
      rw [usedAt_markUsed_other h1 h2]
      exact ⟨Or.inl, fun hor => hor.resolve_right hs⟩

theorem sameE_swap {v u a c : Nat} (h : sameE (v, u) (a, c)) :
    sameE (v, u) (c, a) := by
  rcases h with h | h
  · have h1 : a = v := congrArg Prod.fst h
    have h2 : c = u := congrArg Prod.snd h
    right
    rw [h1, h2]
  · have h1 : a = u := congrArg Prod.fst h
    have h2 : c = v := congrArg Prod.snd h
    left
    rw [h1, h2]

theorem setUsed_dims (g : Graph) (x y : Nat) (b : Bool) :
    (setUsed g x y b).used.length = g.used.length ∧
    ∀ i, ((setUsed g x y b).used.getD i []).length =
      (g.used.getD i []).length := by
  constructor
  · unfold setUsed
    exact List.length_set _ _ _
  · intro i
    unfold setUsed
    by_cases hix : i = x
    · rw [hix]
      by_cases hx : x < g.used.length
      · rw [getD_set_self _ _ _ _ hx, List.length_set]
      · rw [List.set_eq_of_length_le (by omega)]
    · rw [getD_set_ne _ _ _ (fun h => hix h.symm)]

theorem markUsed_dims (g : Graph) (v u : Nat) :
    (markUsed g v u).used.length = g.used.length ∧
    ∀ i, ((markUsed g v u).used.getD i []).length =
      (g.used.getD i []).length := by
  obtain ⟨hL1, hR1⟩ := setUsed_dims g u v true
  obtain ⟨hL2, hR2⟩ := setUsed_dims (setUsed g u v true) v u true
  exact ⟨hL2.trans hL1, fun i => (hR2 i).trans (hR1 i)⟩

theorem markUsed_WF {g : Graph} {v u : Nat} (hwf : WF g) :
    WF (markUsed g v u) := by
  obtain ⟨hL, hR⟩ := markUsed_dims g v u
  refine ⟨hwf.1, hwf.2.1, by rw [hL]; exact hwf.2.2.1, ?_⟩
  intro r hr
  obtain ⟨i, hi, hieq⟩ := List.getElem_of_mem hr
  have hrg : r = (markUsed g v u).used.getD i [] := by
    rw [List.getD_eq_getElem?_getD, List.getElem?_eq_getElem hi, hieq]
    rfl
  rw [hrg, hR i]
  exact WF_used_row hwf i (by rw [← hL]; exact hi)

theorem markUsed_EulerOK {g : Graph} {v u : Nat} (hE : EulerOK g)
    (hg : usedAt g v u = false) : EulerOK (markUsed g v u) := by
  obtain ⟨hwf, hsym, hadj, hnp, hsl⟩ := hE
  refine ⟨markUsed_WF hwf, ?_, hadj, hnp, hsl⟩
  intro a c
  cases hx : usedAt (markUsed g v u) a c <;>
    cases hy : usedAt (markUsed g v u) c a
  · rfl
  · exfalso
    rcases (markUsed_marks hwf hg c a).mp hy with h | h
    · have h' : usedAt g a c = true := (hsym a c).trans h
      have := (markUsed_marks hwf hg a c).mpr (Or.inl h')
      rw [hx] at this
      cases this
    · have := (markUsed_marks hwf hg a c).mpr (Or.inr (sameE_swap h))
      rw [hx] at this
      cases this
  · exfalso
    rcases (markUsed_marks hwf hg a c).mp hx with h | h
    · have h' : usedAt g c a = true := (hsym c a).trans h
      have := (markUsed_marks hwf hg c a).mpr (Or.inl h')
      rw [hy] at this
      cases this
    · have := (markUsed_marks hwf hg c a).mpr (Or.inr (sameE_swap h))
      rw [hy] at this
      cases this
  · rfl

theorem getD_default_irrel {α : Type} (l : List α) (i : Nat) (d d' : α)
    (h : i < l.length) : l.getD i d = l.getD i d' := by
  rw [List.getD_eq_getElem?_getD, List.getD_eq_getElem?_getD,
    List.getElem?_eq_getElem h]
  rfl

theorem sum_map_set {α : Type} (f : α → Nat) :
    ∀ (l : List α) (i : Nat) (a : α), i < l.length →
      ((l.set i a).map f).sum + f (l.getD i a) = (l.map f).sum + f a := by
  intro l
  induction l with
  | nil =>
    intro i a h
    cases h
  | cons x t ih =>
    intro i a h
    cases i with
    | zero =>
      simp only [List.set, List.map_cons, List.sum_cons, List.getD_cons_zero]
      omega
    | succ i =>
      have h' : i < t.length := by simpa using h
      have := ih i a h'
      simp only [List.set, List.map_cons, List.sum_cons, List.getD_cons_succ]
      omega

theorem getD_getElem_false {l : List Bool} {y : Nat} (hy : y < l.length)
    (h : l.getD y true = false) : l[y] = false := by
  have h2 : l[y]? = some false := getD_true_iff_some_false.mp h
  rw [List.getElem?_eq_getElem hy] at h2
  exact Option.some.inj h2

theorem fc_setUsed_le (g : Graph) (x y : Nat) :
    fc (setUsed g x y true) ≤ fc g := by
  by_cases hx : x < g.used.length
  · have hs := sum_map_set (fun r => r.countP (fun b => !b)) g.used x
      ((g.used.getD x []).set y true) hx
    dsimp only at hs
    rw [getD_default_irrel g.used x ((g.used.getD x []).set y true) [] hx] at hs
    have hcp : ((g.used.getD x []).set y true).countP (fun b => !b) ≤
        (g.used.getD x []).countP (fun b => !b) := by
      by_cases hy : y < (g.used.getD x []).length
      · rw [List.countP_set _ _ _ _ hy]
        simp only [Bool.not_true, Bool.false_eq_true, if_false]
        omega
      · rw [List.set_eq_of_length_le (by omega)]
    unfold fc setUsed
    dsimp only
    omega
  · unfold fc setUsed
    rw [List.set_eq_of_length_le (by omega)]

theorem fc_setUsed_lt {g : Graph} {x y : Nat} (hg : usedAt g x y = false) :
    fc (setUsed g x y true) < fc g := by
  obtain ⟨hx, hy⟩ := usedAt_bounds hg
  have hcell : (g.used.getD x [])[y] = false :=
    getD_getElem_false hy hg
  have hs := sum_map_set (fun r => r.countP (fun b => !b)) g.used x
    ((g.used.getD x []).set y true) hx
  dsimp only at hs
  rw [getD_default_irrel g.used x ((g.used.getD x []).set y true) [] hx] at hs
  have hcp : ((g.used.getD x []).set y true).countP (fun b => !b) + 1 =
      (g.used.getD x []).countP (fun b => !b) := by
    rw [List.countP_set _ _ _ _ hy, hcell]
    have hpos : 0 < (g.used.getD x []).countP (fun b => !b) := by
      rw [List.countP_pos]
      exact ⟨false, by rw [← hcell]; exact List.getElem_mem hy, rfl⟩
    simp only [Bool.not_false, Bool.not_true, Bool.false_eq_true, if_false,
      if_true]
    omega
  unfold fc setUsed
  dsimp only
  omega

theorem fc_markUsed_lt {g : Graph} {v u : Nat} (hg : usedAt g v u = false) :
    fc (markUsed g v u) < fc g := by
  unfold markUsed
  by_cases huv : u = v
  · rw [huv]
    rw [huv] at hg
    have h1 : fc (setUsed g v v true) < fc g := fc_setUsed_lt hg
    have h2 := fc_setUsed_le (setUsed g v v true) v v
    omega
  · have h1 : fc (setUsed g u v true) ≤ fc g := fc_setUsed_le g u v
    have hg1 : usedAt (setUsed g u v true) v u = false := by
      rw [usedAt_setUsed_other true (fun hx => huv hx.1.symm)]
      exact hg
    have h2 := fc_setUsed_lt hg1
    omega

theorem countP_flip_at (l : List Nat) (p q : Nat → Bool) (u : Nat)
    (h : ∀ x ∈ l, x ≠ u → q x = p x) (hpu : p u = true) (hqu : q u = false) :
    l.countP q + l.count u = l.countP p := by
  induction l with
  | nil => rfl
  | cons a t ih =>
    rw [List.countP_cons, List.countP_cons, List.count_cons]
    have iht := ih (fun x hx hxu => h x (List.mem_cons_of_mem a hx) hxu)
    by_cases hau : a = u
    · rw [hau, hpu, hqu]
      simp only [beq_self_eq_true, eq_self_iff_true, if_true,
        Bool.false_eq_true, if_false]
      omega
    · rw [h a (List.mem_cons_self a t) hau]
      have hbeq : (a == u) = false := by
        simp [hau]
      rw [hbeq]
      simp only [Bool.false_eq_true, if_false]
      omega

theorem ud_markUsed_v {g : Graph} {v u : Nat} (hE : EulerOK g)
    (hg : usedAt g v u = false) (hne : u ≠ v) (hmem : u ∈ adjOf g v) :
    ud (markUsed g v u) v + 1 = ud g v := by
  have hcount : (adjOf g v).count u = 1 := by
    have h1 := hE.2.2.2.1 v u (fun h => hne h.symm)
    have h2 : 0 < (adjOf g v).count u := List.count_pos_iff.mpr hmem
    omega
  have hflip := countP_flip_at (adjOf g v)
    (fun z => !(usedAt g v z)) (fun z => !(usedAt (markUsed g v u) v z)) u
    (fun x _ hxu => by
      show (!(usedAt (markUsed g v u) v x)) = (!(usedAt g v x))
      rw [usedAt_markUsed_other (fun h => hxu h.2) (fun h => hne h.1.symm)])
    (by show (!(usedAt g v u)) = true
        rw [hg]; rfl)
    (by show (!(usedAt (markUsed g v u) v u)) = false
        rw [usedAt_markUsed_vu hg]; rfl)
  rw [hcount] at hflip
  exact hflip

theorem ud_markUsed_u {g : Graph} {v u : Nat} (hE : EulerOK g)
    (hg : usedAt g v u = false) (hne : u ≠ v) (hmem : u ∈ adjOf g v) :
    ud (markUsed g v u) u + 1 = ud g u := by
  have hcount : (adjOf g u).count v = 1 := by
    rw [hE.2.2.1 u v]
    have h1 := hE.2.2.2.1 v u (fun h => hne h.symm)
    have h2 : 0 < (adjOf g v).count u := List.count_pos_iff.mpr hmem
    omega
  have hguv : usedAt g u v = false := by
    rw [hE.2.1 u v]
    exact hg
  have hflip := countP_flip_at (adjOf g u)
    (fun z => !(usedAt g u z)) (fun z => !(usedAt (markUsed g v u) u z)) v
    (fun x _ hxv => by
      show (!(usedAt (markUsed g v u) u x)) = (!(usedAt g u x))
      rw [usedAt_markUsed_other (fun h => hne h.1) (fun h => hxv h.2)])
    (by show (!(usedAt g u v)) = true
        rw [hguv]; rfl)
    (by show (!(usedAt (markUsed g v u) u v)) = false
        rw [usedAt_markUsed_uv hE.1 hg]; rfl)
  rw [hcount] at hflip
  exact hflip

theorem ud_markUsed_self {g : Graph} {v : Nat} (hE : EulerOK g)
    (hg : usedAt g v v = false) (hmem : v ∈ adjOf g v) :
    ud (markUsed g v v) v + 2 = ud g v := by
  have hcount : (adjOf g v).count v = 2 := by
    rcases hE.2.2.2.2 v with h | h
    · have h2 : 0 < (adjOf g v).count v := List.count_pos_iff.mpr hmem
      omega
    · exact h
  have hflip := countP_flip_at (adjOf g v)
    (fun z => !(usedAt g v z)) (fun z => !(usedAt (markUsed g v v) v z)) v
    (fun x _ hxv => by
      show (!(usedAt (markUsed g v v) v x)) = (!(usedAt g v x))
      rw [usedAt_markUsed_other (fun h => hxv h.2) (fun h => hxv h.2)])
    (by show (!(usedAt g v v)) = true
        rw [hg]; rfl)
    (by show (!(usedAt (markUsed g v v) v v)) = false
        rw [usedAt_markUsed_vu hg]; rfl)
  rw [hcount] at hflip
  exact hflip

theorem ud_markUsed_other {g : Graph} {v u x : Nat} (hx1 : x ≠ v)
    (hx2 : x ≠ u) : ud (markUsed g v u) x = ud g x := by
  unfold ud
  exact List.countP_congr (fun z _ => by
    show (!(usedAt (markUsed g v u) x z)) = true ↔ (!(usedAt g x z)) = true
    rw [usedAt_markUsed_other (fun h => hx1 h.1) (fun h => hx2 h.1)])

/-- Effect of one marking on the parity state of the unused degrees: the
odd set moves from the pair `{rc, v}` to the pair `{rc, u}` (a self-loop
marking leaves it unchanged, which agrees since then `u = v`). -/
theorem parity_mark {g : Graph} {v u rc : Nat} (hE : EulerOK g)
    (hg : usedAt g v u = false) (hmem : u ∈ adjOf g v)
    (hpar : ∀ x, Odd (ud g x) ↔ (rc ≠ v ∧ (x = rc ∨ x = v))) :
    ∀ x, Odd (ud (markUsed g v u) x) ↔ (rc ≠ u ∧ (x = rc ∨ x = u)) := by
  intro x
  by_cases huv : u = v
  · rw [huv]
    rw [huv] at hg hmem
    have hp := hpar x
    by_cases hxv : x = v
    · rw [hxv]
      rw [hxv] at hp
      have h2 := ud_markUsed_self hE hg hmem
      rw [Nat.odd_iff] at hp ⊢
      have hpv := hpar v
      rw [Nat.odd_iff] at hpv
      omega
    · rw [ud_markUsed_other hxv hxv]
      rw [Nat.odd_iff] at hp ⊢
      omega
  · by_cases hxv : x = v
    · rw [hxv]
      have h2 := ud_markUsed_v hE hg huv hmem
      have hpv := hpar v
      rw [Nat.odd_iff] at hpv ⊢
      omega
    · by_cases hxu : x = u
      · rw [hxu]
        have h2 := ud_markUsed_u hE hg huv hmem
        have hpu := hpar u
        rw [Nat.odd_iff] at hpu ⊢
        omega
      · rw [ud_markUsed_other hxv hxu]
        have hp := hpar x
        rw [Nat.odd_iff] at hp ⊢
        omega

theorem steps_cons_cons (a b : Nat) (l : List Nat) :
    steps (a :: b :: l) = (a, b) :: steps (b :: l) := rfl

theorem steps_append : ∀ (l₁ : List Nat) (a : Nat) (l₂ : List Nat),
    steps (l₁ ++ a :: l₂) = steps (l₁ ++ [a]) ++ steps (a :: l₂) := by
  intro l₁
  induction l₁ with
  | nil => intro a l₂; rfl
  | cons x t ih =>
    intro a l₂
    cases t with
    | nil => rfl
    | cons y t' =>
      have h1 : steps ((x :: y :: t') ++ a :: l₂) =
          (x, y) :: steps ((y :: t') ++ a :: l₂) := rfl
      have h2 : steps ((x :: y :: t') ++ [a]) =
          (x, y) :: steps ((y :: t') ++ [a]) := rfl
      rw [h1, h2, ih a l₂]
      rfl

theorem steps_mem {p : List Nat} {s : Nat × Nat} (h : s ∈ steps p) :
    s.1 ∈ p ∧ s.2 ∈ p := by
  obtain ⟨a, b⟩ := s
  obtain ⟨h1, h2⟩ := List.of_mem_zip h
  exact ⟨h1, List.mem_of_mem_tail h2⟩

theorem exists_concat_of_getLast? {α : Type} :
    ∀ {l : List α} {a : α}, l.getLast? = some a → ∃ l', l = l' ++ [a] := by
  intro l
  induction l with
  | nil => intro a h; cases h
  | cons x t ih =>
    intro a h
    cases t with
    | nil =>
      have h' : some x = some a := h
      exact ⟨[], by rw [Option.some.inj h']; rfl⟩
    | cons y t' =>
      rw [List.getLast?_cons_cons] at h
      obtain ⟨l', hl'⟩ := ih h
      exact ⟨x :: l', by rw [hl']; rfl⟩

theorem getLast?_cons_ne {α : Type} (a : α) {l : List α} (h : l ≠ []) :
    (a :: l).getLast? = l.getLast? := by
  cases l with
  | nil => exact absurd rfl h
  | cons y t => rw [List.getLast?_cons_cons]

theorem getLast?_append_right {α : Type} (l₁ : List α) {l₂ : List α}
    (h : l₂ ≠ []) : (l₁ ++ l₂).getLast? = l₂.getLast? := by
  induction l₁ with
  | nil => rfl
  | cons x t ih =>
    have hne : t ++ l₂ ≠ [] := by
      intro hc
      rcases List.append_eq_nil.mp hc with ⟨_, h2⟩
      exact h h2
    rw [List.cons_append, getLast?_cons_ne x hne, ih]

theorem chain'_steps {R : Nat → Nat → Prop} :
    ∀ {p : List Nat}, List.Chain' R p → ∀ s ∈ steps p, R s.1 s.2 := by
  intro p
  induction p with
  | nil =>
    intro _ s hs
    cases hs
  | cons x t ih =>
    intro hc s hs
    cases t with
    | nil => cases hs
    | cons y t' =>
      rw [steps_cons_cons] at hs
      rw [List.chain'_cons] at hc
      rcases List.mem_cons.mp hs with rfl | hs
      · exact hc.1
      · exact ih hc.2 s hs

theorem chain'_adj_congr {g1 g2 : Graph} (h : g1.adj = g2.adj)
    {p : List Nat} (hc : List.Chain' (fun a b => b ∈ adjOf g1 a) p) :
    List.Chain' (fun a b => b ∈ adjOf g2 a) p :=
  hc.imp (fun a b hab => by
    unfold adjOf at hab ⊢
    rw [← h]
    exact hab)

theorem unused_before_mark {gc : Graph} {v u : Nat} (hwf : WF gc)
    (hguard : usedAt gc v u = false) {a c : Nat}
    (h : usedAt (markUsed gc v u) a c = false) : usedAt gc a c = false := by
  cases hx : usedAt gc a c
  · rfl
  · exfalso
    have := usedAt_markUsed_mono hwf hguard hx
    rw [h] at this
    cases this

theorem sameE_used_contra {g2 : Graph}
    (hsym : ∀ a b, usedAt g2 a b = usedAt g2 b a) {s t : Nat × Nat}
    (hs : usedAt g2 s.1 s.2 = false) (ht : usedAt g2 t.1 t.2 = true)
    (hst : sameE s t) : False := by
  rcases hst with h | h
  · rw [h] at ht
    rw [ht] at hs
    cases hs
  · rw [h] at ht
    have ht' : usedAt g2 s.2 s.1 = true := ht
    rw [hsym s.1 s.2, ht'] at hs
    cases hs

/-- Unfolding equation for `eulerLoop` on the empty list. -/
theorem eulerLoop_nil (rec : Nat → Graph → List Nat → Graph × List Nat)
    (v : Nat) (g : Graph) (cycle : List Nat) :
    eulerLoop rec v [] g cycle = (g, cycle) := rfl

/-- Unfolding equation for `eulerLoop` on a nonempty list. -/
theorem eulerLoop_cons (rec : Nat → Graph → List Nat → Graph × List Nat)
    (v u : Nat) (rest : List Nat) (g : Graph) (cycle : List Nat) :
    eulerLoop rec v (u :: rest) g cycle =
      if usedAt g v u then eulerLoop rec v rest g cycle
      else
        match rec u (markUsed g v u) cycle with
        | (g2, c2) => eulerLoop rec v rest g2 c2 := rfl

/-- Unfolding equation for `eulerAux` at positive fuel. -/
theorem eulerAux_succ (fuel v : Nat) (g : Graph) (cycle : List Nat) :
    eulerAux (fuel + 1) v g cycle =
      match eulerLoop (eulerAux fuel) v (adjOf g v) g cycle with
      | (g1, c1) => (g1, c1 ++ [v]) := rfl

theorem sameE_symm {s t : Nat × Nat} (h : sameE s t) : sameE t s := by
  rcases h with h | h
  · left
    rw [h]
  · right
    rw [h]

theorem eq_cons_of_head? {α : Type} {l : List α} {a : α}
    (h : l.head? = some a) : ∃ t, l = a :: t := by
  cases l with
  | nil => cases h
  | cons b t =>
    rw [List.head?_cons] at h
    exact ⟨t, by rw [Option.some.inj h]⟩

/-- Postcondition of one completed `eulerAux` call entered at `v` with
parity state "odd set = `{r, v}`": the appended contribution `w`, read
backwards, is a trail from `v` to `r` whose steps are exactly the edges
the call marked (pairwise distinct as undirected edges and unused at
entry), every vertex of `w` has all its incident flags set on exit, and
the exit unused-degrees are all even. -/
structure EPost (g gE : Graph) (v r : Nat) (w : List Nat) : Prop where
  adjEq : gE.adj = g.adj
  nEq : gE.n = g.n
  ok : EulerOK gE
  fcLe : fc gE ≤ fc g
  wne : w ≠ []
  lastw : w.getLast? = some v
  headw : w.head? = some r
  chain : List.Chain' (fun a b => b ∈ adjOf g a) w.reverse
  stepsNew : ∀ s ∈ steps w.reverse, usedAt g s.1 s.2 = false
  stepsDis : (steps w.reverse).Pairwise (fun s t => ¬ sameE s t)
  marks : ∀ a b, usedAt gE a b = true ↔
    (usedAt g a b = true ∨ ∃ s ∈ steps w.reverse, sameE s (a, b))
  exhaust : ∀ x ∈ w, ∀ z ∈ adjOf g x, usedAt gE x z = true
  evenOut : ∀ x, ¬ Odd (ud gE x)

/-- The recursive invariant of `Graph::euler` (Hierholzer's single pass):
any call with enough fuel, a well-shaped graph and odd set `{r, v}`
appends a trail from `v` back to `r` consisting exactly of the edges it
marks, exhausting every vertex it visits. -/
theorem eulerGo : ∀ (fuel v r : Nat) (g : Graph) (cycle : List Nat)
    (gE : Graph) (cE : List Nat),
    EulerOK g → fc g < fuel → v < g.n → r < g.n →
    (∀ x, Odd (ud g x) ↔ (r ≠ v ∧ (x = r ∨ x = v))) →
    eulerAux fuel v g cycle = (gE, cE) →
    ∃ w, cE = cycle ++ w ∧ EPost g gE v r w := by
  intro fuel
  induction fuel with
  | zero =>
    intro v r g cycle gE cE _ hfc _ _ _ _
    omega
  | succ fuel IH =>
    intro v r g cycle gE cE hE hfc hv hr hpar heq
    have hloop : ∀ (ns : List Nat), (∀ z ∈ ns, z ∈ adjOf g v) →
        ∀ (rc : Nat) (gc : Graph) (cc : List Nat) (gE' : Graph)
          (cE' : List Nat),
        gc.adj = g.adj → gc.n = g.n → EulerOK gc → fc gc ≤ fc g → rc < g.n →
        (∀ x, Odd (ud gc x) ↔ (rc ≠ v ∧ (x = rc ∨ x = v))) →
        eulerLoop (eulerAux fuel) v ns gc cc = (gE', cE') →
        ∃ wL, cE' = cc ++ wL ∧
          gE'.adj = g.adj ∧ gE'.n = g.n ∧ EulerOK gE' ∧ fc gE' ≤ fc g ∧
          (∀ z ∈ ns, usedAt gE' v z = true) ∧
          (∀ a b, usedAt gc a b = true → usedAt gE' a b = true) ∧
          ((wL = [] ∧ gE' = gc) ∨
            (wL ≠ [] ∧
              List.Chain' (fun a b => b ∈ adjOf g a) (v :: wL.reverse) ∧
              (v :: wL.reverse).getLast? = some rc ∧
              (∀ s ∈ steps (v :: wL.reverse), usedAt gc s.1 s.2 = false) ∧
              (steps (v :: wL.reverse)).Pairwise (fun s t => ¬ sameE s t) ∧
              (∀ a b, usedAt gE' a b = true ↔
                (usedAt gc a b = true ∨
                  ∃ s ∈ steps (v :: wL.reverse), sameE s (a, b))) ∧
              (∀ x ∈ wL, ∀ z ∈ adjOf g x, usedAt gE' x z = true) ∧
              (∀ x, ¬ Odd (ud gE' x)))) := by
      intro ns
      induction ns with
      | nil =>
        intro _ rc gc cc gE' cE' hadjc hnc hEc hfcc _ _ hln
        rw [eulerLoop_nil] at hln
        injection hln with h1 h2
        subst h1
        subst h2
        refine ⟨[], by rw [List.append_nil], hadjc, hnc, hEc, hfcc, ?_,
          fun a b h => h, Or.inl ⟨rfl, rfl⟩⟩
        intro z hz
        cases hz
      | cons u rest ihr =>
        intro hsub rc gc cc gE' cE' hadjc hnc hEc hfcc hrc hparc hln
        have hadj_same : ∀ x, adjOf gc x = adjOf g x := by
          intro x
          unfold adjOf
          rw [hadjc]
        cases hguard : usedAt gc v u with
        | true =>
          rw [eulerLoop_cons, if_pos hguard] at hln
          obtain ⟨wL, hcE, hadjE, hnE, hEE, hfcE, hproc, hmono, hrest⟩ :=
            ihr (fun z hz => hsub z (List.mem_cons_of_mem u hz)) rc gc cc
              gE' cE' hadjc hnc hEc hfcc hrc hparc hln
          refine ⟨wL, hcE, hadjE, hnE, hEE, hfcE, ?_, hmono, hrest⟩
          intro z hz
          rcases List.mem_cons.mp hz with rfl | hz
          · exact hmono v z hguard
          · exact hproc z hz
        | false =>
          have humem : u ∈ adjOf gc v := by
            rw [hadj_same v]
            exact hsub u (List.mem_cons_self u rest)
          have hun : u < g.n :=
            adjOf_mem_lt hE.1.1 hE.1.2.1 hv (hsub u (List.mem_cons_self u rest))
          have hE1 : EulerOK (markUsed gc v u) := markUsed_EulerOK hEc hguard
          have hfc1 : fc (markUsed gc v u) < fc gc := fc_markUsed_lt hguard
          have hadj1 : (markUsed gc v u).adj = g.adj := hadjc
          have hn1 : (markUsed gc v u).n = g.n := hnc
          have hpar1 : ∀ x, Odd (ud (markUsed gc v u) x) ↔
              (rc ≠ u ∧ (x = rc ∨ x = u)) :=
            parity_mark hEc hguard humem hparc
          rcases hrec : eulerAux fuel u (markUsed gc v u) cc with ⟨g2, c2⟩
          obtain ⟨w1, hc2, hP⟩ := IH u rc (markUsed gc v u) cc g2 c2 hE1
            (by omega) (by rw [hn1]; exact hun) (by rw [hn1]; exact hrc)
            hpar1 hrec
          rw [eulerLoop_cons, if_neg (by rw [hguard]; simp), hrec] at hln
          have hadj2 : g2.adj = g.adj := hP.adjEq.trans hadj1
          have hn2 : g2.n = g.n := hP.nEq.trans hn1
          have hfc2 : fc g2 ≤ fc g := le_trans hP.fcLe (by omega)
          have hpar2 : ∀ x, Odd (ud g2 x) ↔ (v ≠ v ∧ (x = v ∨ x = v)) := by
            intro x
            constructor
            · intro hodd
              exact absurd hodd (hP.evenOut x)
            · rintro ⟨hvv, _⟩
              exact absurd rfl hvv
          obtain ⟨wr, hcEr, hadjE, hnE, hEE, hfcE, hproc, hmono2, hrest⟩ :=
            ihr (fun z hz => hsub z (List.mem_cons_of_mem u hz)) v g2 c2
              gE' cE' hadj2 hn2 hP.ok hfc2 hv hpar2 hln
          -- uniform rest-segment properties (trivial when the rest made no
          -- marks)
          have hqr : List.Chain' (fun a b => b ∈ adjOf g a) (v :: wr.reverse) ∧
              (v :: wr.reverse).getLast? = some v ∧
              (∀ s ∈ steps (v :: wr.reverse), usedAt g2 s.1 s.2 = false) ∧
              (steps (v :: wr.reverse)).Pairwise (fun s t => ¬ sameE s t) ∧
              (∀ a b, usedAt gE' a b = true ↔
                (usedAt g2 a b = true ∨
                  ∃ s ∈ steps (v :: wr.reverse), sameE s (a, b))) ∧
              (∀ x ∈ wr, ∀ z ∈ adjOf g x, usedAt gE' x z = true) ∧
              (∀ x, ¬ Odd (ud gE' x)) := by
            rcases hrest with ⟨hwrnil, hgE'⟩ | hm
            · subst hwrnil
              subst hgE'
              refine ⟨List.chain'_singleton v, rfl, ?_, List.Pairwise.nil,
                ?_, ?_, hP.evenOut⟩
              · intro s hs
                cases hs
              · intro a b
                refine ⟨Or.inl, ?_⟩
                rintro (h | ⟨s, hs, _⟩)
                · exact h
                · cases hs
              · intro x hx
                cases hx
            · exact ⟨hm.2.1, hm.2.2.1, hm.2.2.2.1, hm.2.2.2.2.1,
                hm.2.2.2.2.2.1, hm.2.2.2.2.2.2.1, hm.2.2.2.2.2.2.2⟩
          obtain ⟨hqrChain, hqrLast, hqrNew, hqrDis, hqrMarks, hqrExh,
            hqrEven⟩ := hqr
          -- shapes
          have hp1ne : w1.reverse ≠ [] := by
            intro hc
            exact hP.wne (List.reverse_eq_nil_iff.mp hc)
          have hp1head : w1.reverse.head? = some u := by
            rw [List.head?_reverse]
            exact hP.lastw
          obtain ⟨p1t, hp1shape⟩ := eq_cons_of_head? hp1head
          obtain ⟨l', hql'⟩ := exists_concat_of_getLast? hqrLast
          have hqshape : (v :: (w1 ++ wr).reverse) =
              (v :: wr.reverse) ++ w1.reverse := by
            rw [List.reverse_append]
            rfl
          have hq_eq : steps (v :: (w1 ++ wr).reverse) =
              steps (v :: wr.reverse) ++ ((v, u) :: steps w1.reverse) := by
            rw [hqshape, hql',
              show (l' ++ [v]) ++ w1.reverse = l' ++ (v :: w1.reverse) from by
                rw [List.append_assoc]; rfl,
              steps_append l' v w1.reverse, hp1shape, steps_cons_cons]
          have hmark_vu : usedAt (markUsed gc v u) v u = true :=
            usedAt_markUsed_vu hguard
          have hg2_vu : usedAt g2 v u = true :=
            (hP.marks v u).mpr (Or.inl hmark_vu)
          have hmono1 : ∀ a b, usedAt gc a b = true →
              usedAt g2 a b = true := fun a b h =>
            (hP.marks a b).mpr (Or.inl (usedAt_markUsed_mono hEc.1 hguard h))
          have hchain_p1 : List.Chain' (fun a b => b ∈ adjOf g a)
              w1.reverse :=
            chain'_adj_congr hadj1 hP.chain
          have hstepsP1_g2 : ∀ s ∈ steps w1.reverse,
              usedAt g2 s.1 s.2 = true := by
            intro s hs
            exact (hP.marks s.1 s.2).mpr (Or.inr ⟨s, hs, Or.inl Prod.mk.eta⟩)
          have hstepsP1_gc : ∀ s ∈ steps w1.reverse,
              usedAt gc s.1 s.2 = false := fun s hs =>
            unused_before_mark hEc.1 hguard (hP.stepsNew s hs)
          have hstepsQr_gc : ∀ s ∈ steps (v :: wr.reverse),
              usedAt gc s.1 s.2 = false := by
            intro s hs
            apply unused_before_mark hEc.1 hguard
            cases hx : usedAt (markUsed gc v u) s.1 s.2
            · rfl
            · exfalso
              have := hqrNew s hs
              rw [(hP.marks s.1 s.2).mpr (Or.inl hx)] at this
              cases this
          refine ⟨w1 ++ wr, ?_, hadjE, hnE, hEE, hfcE, ?_, ?_,
            Or.inr ⟨?_, ?_, ?_, ?_, ?_, ?_, ?_, hqrEven⟩⟩
          · rw [hcEr, hc2, List.append_assoc]
          · -- processed neighbours
            intro z hz
            rcases List.mem_cons.mp hz with rfl | hz
            · exact hmono2 v z hg2_vu
            · exact hproc z hz
          · exact fun a b h => hmono2 a b (hmono1 a b h)
          · -- nonempty
            intro hc
            exact hP.wne (List.append_eq_nil.mp hc).1
          · -- chain
            rw [hqshape, List.chain'_append]
            refine ⟨hqrChain, hchain_p1, ?_⟩
            intro x hx y hy
            rw [hqrLast] at hx
            rw [hp1head] at hy
            have hx' : v = x := Option.some.inj hx
            have hy' : u = y := Option.some.inj hy
            rw [← hx', ← hy']
            exact hsub u (List.mem_cons_self u rest)
          · -- last of the walk is the anchor
            rw [hqshape, getLast?_append_right _ hp1ne, List.getLast?_reverse]
            exact hP.headw
          · -- steps unused at entry
            intro s hs
            rw [hq_eq] at hs
            rcases List.mem_append.mp hs with hs | hs
            · exact hstepsQr_gc s hs
            · rcases List.mem_cons.mp hs with rfl | hs
              · exact hguard
              · exact hstepsP1_gc s hs
          · -- steps pairwise distinct as undirected edges
            rw [hq_eq, List.pairwise_append]
            refine ⟨hqrDis, ?_, ?_⟩
            · rw [List.pairwise_cons]
              refine ⟨?_, hP.stepsDis⟩
              intro t ht hst
              exact sameE_used_contra (markUsed_EulerOK hEc hguard).2.1
                (hP.stepsNew t ht) hmark_vu (sameE_symm hst)
            · intro s hs t ht hst
              have hsu : usedAt g2 s.1 s.2 = false := hqrNew s hs
              have htu : usedAt g2 t.1 t.2 = true := by
                rcases List.mem_cons.mp ht with rfl | ht
                · exact hg2_vu
                · exact hstepsP1_g2 t ht
              exact sameE_used_contra hP.ok.2.1 hsu htu hst
          · -- marks characterisation
            intro a b
            constructor
            · intro h
              rcases (hqrMarks a b).mp h with h2 | ⟨s, hsmem, hss⟩
              · rcases (hP.marks a b).mp h2 with h3 | ⟨s, hsmem, hss⟩
                · rcases (markUsed_marks hEc.1 hguard a b).mp h3 with h4 | h4
                  · exact Or.inl h4
                  · refine Or.inr ⟨(v, u), ?_, h4⟩
                    rw [hq_eq]
                    exact List.mem_append_right _ (List.mem_cons_self _ _)
                · refine Or.inr ⟨s, ?_, hss⟩
                  rw [hq_eq]
                  exact List.mem_append_right _ (List.mem_cons_of_mem _ hsmem)
              · refine Or.inr ⟨s, ?_, hss⟩
                rw [hq_eq]
                exact List.mem_append_left _ hsmem
            · intro h
              rcases h with h | ⟨s, hsmem, hss⟩
              · exact (hqrMarks a b).mpr (Or.inl ((hP.marks a b).mpr
                  (Or.inl ((markUsed_marks hEc.1 hguard a b).mpr (Or.inl h)))))
              · rw [hq_eq] at hsmem
                rcases List.mem_append.mp hsmem with hsmem | hsmem
                · exact (hqrMarks a b).mpr (Or.inr ⟨s, hsmem, hss⟩)
                · rcases List.mem_cons.mp hsmem with rfl | hsmem
                  · exact (hqrMarks a b).mpr (Or.inl ((hP.marks a b).mpr
                      (Or.inl ((markUsed_marks hEc.1 hguard a b).mpr
                        (Or.inr hss)))))
                  · exact (hqrMarks a b).mpr (Or.inl ((hP.marks a b).mpr
                      (Or.inr ⟨s, hsmem, hss⟩)))
          · -- exhaustion of visited vertices
            intro x hx z hz
            rcases List.mem_append.mp hx with hx | hx
            · apply hmono2
              apply hP.exhaust x hx z
              rw [show adjOf (markUsed gc v u) x = adjOf g x from by
                unfold adjOf; rw [hadj1]]
              exact hz
            · exact hqrExh x hx z hz
    -- body of eulerAux at positive fuel
    rcases hL : eulerLoop (eulerAux fuel) v (adjOf g v) g cycle with ⟨g1, c1⟩
    rw [eulerAux_succ, hL] at heq
    injection heq with hgE hcE
    obtain ⟨wL, hc1, hadjE, hnE, hEE, hfcE, hproc, hmono, hrest⟩ :=
      hloop (adjOf g v) (fun z hz => hz) r g cycle g1 c1 rfl rfl hE
        (le_refl _) hr hpar hL
    subst hgE
    rcases hrest with ⟨hwlnil, hg1⟩ | hm
    · -- the loop marked nothing: v was already exhausted, which forces
      -- the odd set to be empty, i.e. r = v, and the contribution is [v]
      subst hwlnil
      have hproc' : ∀ z ∈ adjOf g v, usedAt g v z = true := by
        intro z hz
        rw [← hg1]
        exact hproc z hz
      have hud : ud g v = 0 := by
        unfold ud
        rw [List.countP_eq_zero]
        intro z hz
        rw [hproc' z hz]
        simp
      have hrv : r = v := by
        by_contra hrv
        have hodd := (hpar v).mpr ⟨hrv, Or.inr rfl⟩
        rw [hud] at hodd
        simp [Nat.odd_iff] at hodd
      refine ⟨[v], by rw [← hcE, hc1, List.append_nil], ?_⟩
      refine ⟨hadjE, hnE, hEE, hfcE, by simp, rfl, by rw [hrv]; rfl, ?_, ?_,
        ?_, ?_, ?_, ?_⟩
      · exact List.chain'_singleton v
      · intro s hs
        cases hs
      · exact List.Pairwise.nil
      · intro a b
        rw [hg1]
        refine ⟨Or.inl, ?_⟩
        rintro (h | ⟨s, hs, _⟩)
        · exact h
        · cases hs
      · intro x hx z hz
        rcases List.mem_cons.mp hx with rfl | hx
        · exact hproc z hz
        · cases hx
      · intro x
        rw [hg1]
        intro hodd
        have := (hpar x).mp hodd
        exact this.1 hrv
    · obtain ⟨hwlne, hchain, hlast, hnew, hdis, hmarks, hexh, heven⟩ := hm
      refine ⟨wL ++ [v], by rw [← hcE, hc1, List.append_assoc], ?_⟩
      have hwrev : (wL ++ [v]).reverse = v :: wL.reverse := by
        rw [List.reverse_append]
        rfl
      refine ⟨hadjE, hnE, hEE, hfcE, by simp, List.getLast?_concat _, ?_, ?_,
        ?_, ?_, ?_, ?_, heven⟩
      · -- head of the contribution is the anchor r
        rw [← List.getLast?_reverse (wL ++ [v]), hwrev]
        exact hlast
      · rw [hwrev]
        exact hchain
      · rw [hwrev]
        exact hnew
      · rw [hwrev]
        exact hdis
      · intro a b
        rw [hwrev]
        exact hmarks a b
      · intro x hx z hz
        rcases List.mem_append.mp hx with hx | hx
        · exact hexh x hx z hz
        · rw [List.mem_singleton] at hx
          subst hx
          exact hproc z hz

/-! ### Counting infrastructure for the edge-traversal bijection -/

theorem countP_ext {α : Type} (p q : α → Bool) :
    ∀ (l : List α), (∀ a ∈ l, p a = q a) → l.countP p = l.countP q := by
  intro l
  induction l with
  | nil => intro _; rfl
  | cons a l ih =>
    intro h
    rw [List.countP_cons, List.countP_cons, h a (List.mem_cons_self a l),
      ih (fun x hx => h x (List.mem_cons_of_mem a hx))]

theorem map_congr_mem {α β : Type} {f g : α → β} :
    ∀ (l : List α), (∀ a ∈ l, f a = g a) → l.map f = l.map g := by
  intro l
  induction l with
  | nil => intro _; rfl
  | cons a l ih =>
    intro h
    rw [List.map_cons, List.map_cons, h a (List.mem_cons_self a l),
      ih (fun x hx => h x (List.mem_cons_of_mem a hx))]

theorem sum_map_add {α : Type} (l : List α) (f g : α → Nat) :
    (l.map (fun b => f b + g b)).sum = (l.map f).sum + (l.map g).sum := by
  induction l with
  | nil => rfl
  | cons a l ih =>
    simp only [List.map_cons, List.sum_cons]
    omega

theorem countP_eq_sum_map {α : Type} (l : List α) (p : α → Bool) :
    l.countP p = (l.map (fun b => if p b then 1 else 0)).sum := by
  induction l with
  | nil => rfl
  | cons a l ih =>
    rw [List.countP_cons, List.map_cons, List.sum_cons, ih]
    omega

theorem sum_map_one {α : Type} :
    ∀ (l : List α), (l.map (fun _ => (1 : Nat))).sum = l.length := by
  intro l
  induction l with
  | nil => rfl
  | cons a l ih =>
    rw [List.map_cons, List.sum_cons, ih, List.length_cons]
    omega

theorem sum_map_zero {α : Type} :
    ∀ (l : List α), (l.map (fun _ => (0 : Nat))).sum = 0 := by
  intro l
  induction l with
  | nil => rfl
  | cons a l ih =>
    rw [List.map_cons, List.sum_cons, ih]

/-- Double counting: summing row counts equals summing column counts. -/
theorem countP_fubini {α β : Type} (A : List α) (B : List β)
    (p : α → β → Bool) :
    (A.map (fun a => B.countP (p a))).sum =
      (B.map (fun b => A.countP (fun a => p a b))).sum := by
  induction A with
  | nil =>
    rw [List.map_nil, List.sum_nil,
      map_congr_mem B (fun b _ => List.countP_nil (fun a => p a b)),
      sum_map_zero]
  | cons a A ih =>
    have hmap : B.map (fun b => (a :: A).countP (fun x => p x b)) =
        B.map (fun b => A.countP (fun x => p x b) +
          (if p a b then 1 else 0)) := by
      apply map_congr_mem
      intro b _
      rw [List.countP_cons]
    rw [List.map_cons, List.sum_cons, hmap, sum_map_add, ih,
      ← countP_eq_sum_map]
    omega

/-- If every element of `A` matches exactly one element of `B` and vice
versa, the two lists have equal length. -/
theorem count_pairing {α β : Type} (A : List α) (B : List β)
    (p : α → β → Bool)
    (hA : ∀ a ∈ A, B.countP (p a) = 1)
    (hB : ∀ b ∈ B, A.countP (fun a => p a b) = 1) :
    A.length = B.length := by
  have h1 : (A.map (fun a => B.countP (p a))).sum = A.length := by
    rw [map_congr_mem A hA, sum_map_one]
  have h2 : (B.map (fun b => A.countP (fun a => p a b))).sum = B.length := by
    rw [map_congr_mem B hB, sum_map_one]
  rw [← h1, ← h2, countP_fubini]

theorem sameE_trans {s t u : Nat × Nat} (h1 : sameE s t) (h2 : sameE t u) :
    sameE s u := by
  rcases h2 with h2 | h2
  · rw [h2]
    exact h1
  · rcases h1 with h1 | h1
    · rw [h2, h1]
      exact Or.inr rfl
    · rw [h2, h1]
      exact Or.inl Prod.mk.eta

/-- In a list of pairwise-distinct undirected edges, an edge that occurs
(as either orientation) is counted exactly once. -/
theorem countP_sameE_one :
    ∀ (l : List (Nat × Nat)), l.Pairwise (fun s t => ¬ sameE s t) →
      ∀ (t₀ x : Nat × Nat), t₀ ∈ l → sameE t₀ x →
      l.countP (fun t => decide (sameE t x)) = 1 := by
  intro l
  induction l with
  | nil =>
    intro _ t₀ x ht₀ _
    cases ht₀
  | cons a l ih =>
    intro hp t₀ x ht₀ hx
    rw [List.pairwise_cons] at hp
    rw [List.countP_cons]
    rcases List.mem_cons.mp ht₀ with rfl | hmem
    · have hz : l.countP (fun t => decide (sameE t x)) = 0 := by
        rw [List.countP_eq_zero]
        intro t ht
        simp only [decide_eq_true_eq]
        intro hst
        exact hp.1 t ht (sameE_trans hx (sameE_symm hst))
      rw [hz, if_pos (by simp only [decide_eq_true_eq]; exact hx)]
    · have hne : ¬ (decide (sameE a x) = true) := by
        simp only [decide_eq_true_eq]
        intro hax
        exact hp.1 t₀ hmem (sameE_trans hax (sameE_symm hx))
      rw [ih hp.2 t₀ x hmem hx, if_neg hne]

theorem steps_length (l : List Nat) : (steps l).length = l.length - 1 := by
  unfold steps
  rw [List.length_zip, List.length_tail]
  omega

/-! ### The multiset of inserted edges versus the adjacency counts -/

theorem adjOf_createG (n a : Nat) : adjOf (createG n) a = [] := by
  unfold adjOf createG
  rw [getD_replicate, ite_self]

/-- The adjacency counts of a built graph in terms of the insertion
list: each insertion `(u, v)` contributes one occurrence in each
direction (two to the diagonal entry for a self-loop). -/
theorem buildM_count :
    ∀ (es : List (Nat × Nat)) (g0 g : Graph), WF g0 →
      es.foldlM (fun g e => addEdge g e.1 e.2) g0 = .ok g →
      ∀ a b, (adjOf g a).count b =
        (adjOf g0 a).count b + es.count (a, b) + es.count (b, a) := by
  intro es
  induction es with
  | nil =>
    intro g0 g _ h a b
    simp only [List.foldlM_nil] at h
    have h' : (Except.ok g0 : Except Graph Graph) = .ok g := h
    rw [← Except.ok.inj h']
    simp
  | cons e es ih =>
    intro g0 g hwf h a b
    rw [List.foldlM_cons] at h
    cases hae : addEdge g0 e.1 e.2 with
    | error g1 =>
      rw [hae] at h
      have h' : (Except.error g1 : Except Graph Graph) = .ok g := h
      cases h'
    | ok g1 =>
      rw [hae] at h
      have h : es.foldlM (fun g e => addEdge g e.1 e.2) g1 = .ok g := h
      obtain ⟨hu, hv, hg1⟩ := addEdge_ok_eq hwf hae
      subst hg1
      have hcount := addEdgeT_count g0 e.1 e.2 (by rw [hwf.1]; exact hu)
        (by rw [hwf.1]; exact hv) a b
      have e1 : (if a = e.1 ∧ b = e.2 then 1 else 0) =
          (if (e == (a, b)) = true then 1 else 0) := by
        by_cases hc : e = (a, b)
        · rw [if_pos ⟨(congrArg Prod.fst hc).symm, (congrArg Prod.snd hc).symm⟩,
            if_pos (by rw [hc]; exact beq_self_eq_true _)]
        · rw [if_neg (fun hx => hc (Prod.ext_iff.mpr ⟨hx.1.symm, hx.2.symm⟩)),
            if_neg (fun hx => hc (eq_of_beq hx))]
      have e2 : (if a = e.2 ∧ b = e.1 then 1 else 0) =
          (if (e == (b, a)) = true then 1 else 0) := by
        by_cases hc : e = (b, a)
        · rw [if_pos ⟨(congrArg Prod.snd hc).symm, (congrArg Prod.fst hc).symm⟩,
            if_pos (by rw [hc]; exact beq_self_eq_true _)]
        · rw [if_neg (fun hx => hc (Prod.ext_iff.mpr ⟨hx.2.symm, hx.1.symm⟩)),
            if_neg (fun hx => hc (eq_of_beq hx))]
      rw [ih _ _ (addEdgeT_WF hu hv hwf) h a b, hcount, List.count_cons,
        List.count_cons, e1, e2]
      omega

/-- Specialisation of the count formula to the lifecycle start. -/
theorem buildM_count' {n : Nat} {es : List (Nat × Nat)} {g : Graph}
    (hb : buildM n es = .ok g) (a b : Nat) :
    (adjOf g a).count b = es.count (a, b) + es.count (b, a) := by
  have h := buildM_count es (createG n) g (WF_createG n) hb a b
  rw [adjOf_createG, List.count_nil] at h
  omega

/-- A pairwise-distinct undirected insertion list holds a proper edge
`{a, b}` at most once over both orientations. -/
theorem count_und_le {a b : Nat} (hab : a ≠ b) :
    ∀ {es : List (Nat × Nat)}, es.Pairwise (fun s t => ¬ sameE s t) →
      es.count (a, b) + es.count (b, a) ≤ 1 := by
  intro es
  induction es with
  | nil =>
    intro _
    rw [List.count_nil, List.count_nil]
    omega
  | cons e es ih =>
    intro hp
    rw [List.pairwise_cons] at hp
    rw [List.count_cons, List.count_cons]
    by_cases h1 : e = (a, b)
    · have t1 : es.count (a, b) = 0 := by
        rw [List.count_eq_zero]
        intro hm
        exact hp.1 _ hm (Or.inl h1.symm)
      have t2 : es.count (b, a) = 0 := by
        rw [List.count_eq_zero]
        intro hm
        exact hp.1 _ hm (Or.inr (by rw [h1]))
      have hne : ¬ ((e == (b, a)) = true) := by
        intro hx
        have h2 := h1.symm.trans (eq_of_beq hx)
        rw [Prod.mk.injEq] at h2
        exact hab h2.1
      rw [t1, t2,
        if_pos (show (e == (a, b)) = true by rw [h1]; exact beq_self_eq_true _),
        if_neg hne]
    · by_cases h2 : e = (b, a)
      · have t1 : es.count (a, b) = 0 := by
          rw [List.count_eq_zero]
          intro hm
          exact hp.1 _ hm (Or.inr (by rw [h2]))
        have t2 : es.count (b, a) = 0 := by
          rw [List.count_eq_zero]
          intro hm
          exact hp.1 _ hm (Or.inl h2.symm)
        rw [t1, t2, if_neg (fun hx => h1 (eq_of_beq hx)),
          if_pos (show (e == (b, a)) = true by rw [h2]; exact beq_self_eq_true _)]
      · rw [if_neg (fun hx => h1 (eq_of_beq hx)),
          if_neg (fun hx => h2 (eq_of_beq hx))]
        have := ih hp.2
        omega

/-- A pairwise-distinct undirected insertion list holds a self-loop at
most once. -/
theorem count_self_le {a : Nat} :
    ∀ {es : List (Nat × Nat)}, es.Pairwise (fun s t => ¬ sameE s t) →
      es.count (a, a) ≤ 1 := by
  intro es
  induction es with
  | nil =>
    intro _
    rw [List.count_nil]
    omega
  | cons e es ih =>
    intro hp
    rw [List.pairwise_cons] at hp
    rw [List.count_cons]
    by_cases h1 : e = (a, a)
    · have t1 : es.count (a, a) = 0 := by
        rw [List.count_eq_zero]
        intro hm
        exact hp.1 _ hm (Or.inl h1.symm)
      rw [t1,
        if_pos (show (e == (a, a)) = true by rw [h1]; exact beq_self_eq_true _)]
    · rw [if_neg (fun hx => h1 (eq_of_beq hx))]
      have := ih hp.2
      omega

theorem adjOf_ne_nil_lt {g : Graph} (hlen : g.adj.length = g.n) {b : Nat}
    (h : adjOf g b ≠ []) : b < g.n := by
  by_contra hge
  apply h
  unfold adjOf
  apply List.getD_eq_default
  omega

/-! ### The entry state of the Eulerian run: `resetUsed` -/

theorem usedAt_resetUsed (g : Graph) (a b : Nat) :
    usedAt (resetUsed g) a b =
      if a < g.n ∧ b < g.n then false else true := by
  unfold usedAt resetUsed
  show ((List.replicate g.n (List.replicate g.n false)).getD a []).getD b
    true = _
  rw [getD_replicate]
  by_cases ha : a < g.n
  · rw [if_pos ha, getD_replicate]
    by_cases hb : b < g.n
    · rw [if_pos hb, if_pos ⟨ha, hb⟩]
    · rw [if_neg hb, if_neg (fun hx => hb hx.2)]
  · rw [if_neg ha, if_neg (fun hx => ha hx.1)]
    rfl

theorem WF_resetUsed {g : Graph} (hwf : WF g) : WF (resetUsed g) := by
  obtain ⟨h1, h2, _, _⟩ := hwf
  refine ⟨h1, h2, by simp [resetUsed], ?_⟩
  intro r hr
  have hr' : r = List.replicate g.n false := List.eq_of_mem_replicate hr
  rw [hr']
  exact List.length_replicate _ _

/-- After a pairwise-distinct build and a usage reset, all shape
hypotheses of the Eulerian analysis hold. -/
theorem EulerOK_resetUsed {n : Nat} {es : List (Nat × Nat)} {g : Graph}
    (hb : buildM n es = .ok g)
    (hdis : es.Pairwise (fun s t => ¬ sameE s t)) :
    EulerOK (resetUsed g) := by
  obtain ⟨hwf, hsym⟩ :=
    buildM_inv es (createG n) g (WF_createG n) (symAdj_createG n) hb
  refine ⟨WF_resetUsed hwf, ?_, ?_, ?_, ?_⟩
  · intro a b
    rw [usedAt_resetUsed, usedAt_resetUsed]
    by_cases ha : a < g.n <;> by_cases hb' : b < g.n <;> simp [ha, hb']
  · intro a b
    exact hsym a b
  · intro a b hab
    have h1 := buildM_count' hb a b
    have h2 := count_und_le hab hdis
    have h3 : adjOf (resetUsed g) a = adjOf g a := rfl
    rw [h3]
    omega
  · intro a
    have h1 := buildM_count' hb a a
    have h2 := count_self_le (a := a) hdis
    have h3 : adjOf (resetUsed g) a = adjOf g a := rfl
    rw [h3]
    omega

theorem fc_resetUsed (g : Graph) : fc (resetUsed g) = g.n * g.n := by
  unfold fc
  show ((List.replicate g.n (List.replicate g.n false)).map
    (fun r => r.countP (fun b => !b))).sum = g.n * g.n
  rw [List.map_replicate, List.sum_replicate]
  have hrow : (List.replicate g.n false).countP (fun b => !b) = g.n := by
    have hx : (List.replicate g.n false).countP (fun b => !b) =
        (List.replicate g.n false).length :=
      List.countP_eq_length.mpr (by
        intro a ha
        rw [List.eq_of_mem_replicate ha]
        rfl)
    rw [hx, List.length_replicate]
  rw [hrow, smul_eq_mul]

theorem ud_resetUsed {g : Graph} (hwf : WF g) (x : Nat) :
    ud (resetUsed g) x = (adjOf g x).length := by
  unfold ud
  by_cases hx : x < g.n
  · refine List.countP_eq_length.mpr ?_
    intro z hz
    have hzlt : z < g.n := adjOf_mem_lt hwf.1 hwf.2.1 hx hz
    show (!(usedAt (resetUsed g) x z)) = true
    rw [usedAt_resetUsed, if_pos ⟨hx, hzlt⟩]
    rfl
  · have hnil : adjOf g x = [] := by
      unfold adjOf
      apply List.getD_eq_default
      rw [hwf.1]
      omega
    have hnil' : adjOf (resetUsed g) x = adjOf g x := rfl
    rw [hnil', hnil]
    rfl

/-- In a connected graph, the exhaustion of the visited vertices spreads
along reachability: every edge of every vertex reachable from the start
is marked on exit. -/
theorem exhaust_reach {g gE : Graph} {w : List Nat} {v : Nat}
    (hvw : v ∈ w)
    (hexh : ∀ x ∈ w, ∀ z ∈ adjOf g x, usedAt gE x z = true)
    (hmarks : ∀ a b, usedAt gE a b = true →
      (usedAt (resetUsed g) a b = true ∨ ∃ s ∈ steps w.reverse, sameE s (a, b)))
    (hlen : g.adj.length = g.n)
    (hmem : ∀ l ∈ g.adj, ∀ x ∈ l, x < g.n) :
    ∀ x, Relation.ReflTransGen (fun a b => b ∈ adjOf g a) v x →
      ∀ z ∈ adjOf g x, usedAt gE x z = true := by
  intro x hreach
  induction hreach with
  | refl => exact hexh v hvw
  | @tail b c hab hbc ih =>
    have hused : usedAt gE b c = true := ih c hbc
    rcases hmarks b c hused with h0 | ⟨s, hs, hss⟩
    · exfalso
      have hbn : b < g.n := adjOf_ne_nil_lt hlen (by
        intro hnil
        rw [hnil] at hbc
        cases hbc)
      have hcn : c < g.n := adjOf_mem_lt hlen hmem hbn hbc
      rw [usedAt_resetUsed, if_pos ⟨hbn, hcn⟩] at h0
      cases h0
    · have hc_w : c ∈ w := by
        rcases hss with h | h
        · have hc2 : c = s.2 := congrArg Prod.snd h
          rw [hc2]
          exact List.mem_reverse.mp (steps_mem hs).2
        · have hc1 : c = s.1 := congrArg Prod.snd h
          rw [hc1]
          exact List.mem_reverse.mp (steps_mem hs).1
      exact hexh c hc_w

/-- The full correctness of the Eulerian run on a built graph whose
insertion list is pairwise distinct as undirected edges, with all
adjacency degrees even and the graph connected: the output starts and
ends at the start vertex, has length `edgeCount + 1`, its reversal is a
walk along adjacencies, and it traverses every inserted edge exactly
once in either direction. -/
theorem eulerMaster {n : Nat} {es : List (Nat × Nat)} {g gE : Graph}
    {v : Nat} {cE : List Nat}
    (hb : buildM n es = .ok g)
    (hdis : es.Pairwise (fun s t => ¬ sameE s t))
    (heven : ∀ x, x < g.n → (adjOf g x).length % 2 = 0)
    (hconn : ∀ u w, u < g.n → w < g.n →
      Relation.ReflTransGen (fun a b => b ∈ adjOf g a) u w)
    (hv : v < g.n)
    (heq : euler (resetUsed g) v [] = (gE, cE)) :
    cE.length = es.length + 1 ∧ cE.head? = some v ∧ cE.getLast? = some v ∧
    List.Chain' (fun a b => b ∈ adjOf g a) cE.reverse ∧
    cE.reverse.head? = some v ∧ cE.reverse.getLast? = some v ∧
    (∀ e ∈ es, (steps cE.reverse).countP (fun s => decide (sameE s e)) = 1) := by
  obtain ⟨hwf, hsym⟩ :=
    buildM_inv es (createG n) g (WF_createG n) (symAdj_createG n) hb
  have hE0 : EulerOK (resetUsed g) := EulerOK_resetUsed hb hdis
  have hpar : ∀ x, Odd (ud (resetUsed g) x) ↔ (v ≠ v ∧ (x = v ∨ x = v)) := by
    intro x
    constructor
    · intro hodd
      exfalso
      rw [ud_resetUsed hwf, Nat.odd_iff] at hodd
      by_cases hx : x < g.n
      · have := heven x hx
        omega
      · have hnil : adjOf g x = [] := by
          unfold adjOf
          apply List.getD_eq_default
          rw [hwf.1]
          omega
        rw [hnil] at hodd
        cases hodd
    · rintro ⟨hvv, _⟩
      exact absurd rfl hvv
  have heq' : eulerAux (g.n * g.n + 1) v (resetUsed g) [] = (gE, cE) := heq
  obtain ⟨w, hw, hP⟩ := eulerGo (g.n * g.n + 1) v v (resetUsed g) [] gE cE hE0
    (by rw [fc_resetUsed]; omega) hv hv hpar heq'
  rw [List.nil_append] at hw
  subst hw
  have hchain : List.Chain' (fun a b => b ∈ adjOf g a) cE.reverse :=
    chain'_adj_congr rfl hP.chain
  have hvw : v ∈ cE := by
    obtain ⟨l', hl'⟩ := exists_concat_of_getLast? hP.lastw
    rw [hl']
    exact List.mem_append_right _ (List.mem_singleton.mpr rfl)
  have hreach := exhaust_reach hvw hP.exhaust
    (fun a b h => (hP.marks a b).mp h) hwf.1 hwf.2.1
  have hBside : ∀ e ∈ es,
      (steps cE.reverse).countP (fun s => decide (sameE s e)) = 1 := by
    intro e he
    have hc := buildM_count' hb e.1 e.2
    have hpos : 0 < es.count (e.1, e.2) := by
      rw [List.count_pos_iff, Prod.mk.eta]
      exact he
    have hmem2 : e.2 ∈ adjOf g e.1 := by
      rw [← List.count_pos_iff]
      omega
    have h1n : e.1 < g.n := adjOf_ne_nil_lt hwf.1 (by
      intro hx
      rw [hx] at hmem2
      cases hmem2)
    have h2n : e.2 < g.n := adjOf_mem_lt hwf.1 hwf.2.1 h1n hmem2
    have husd : usedAt gE e.1 e.2 = true :=
      hreach e.1 (hconn v e.1 hv h1n) e.2 hmem2
    rcases (hP.marks e.1 e.2).mp husd with h0 | ⟨s, hs, hss⟩
    · rw [usedAt_resetUsed, if_pos ⟨h1n, h2n⟩] at h0
      cases h0
    · rw [Prod.mk.eta] at hss
      exact countP_sameE_one (steps cE.reverse) hP.stepsDis s e hs hss
  have hAside : ∀ s ∈ steps cE.reverse,
      es.countP (fun e => decide (sameE s e)) = 1 := by
    intro s hs
    have hadj : s.2 ∈ adjOf g s.1 := chain'_steps hchain s hs
    have hc := buildM_count' hb s.1 s.2
    have hpos : 0 < (adjOf g s.1).count s.2 := List.count_pos_iff.mpr hadj
    have hex : ∃ e₀, e₀ ∈ es ∧ sameE e₀ s := by
      by_cases hc1 : 0 < es.count (s.1, s.2)
      · exact ⟨(s.1, s.2), List.count_pos_iff.mp hc1, Or.inl Prod.mk.eta.symm⟩
      · have hc2 : 0 < es.count (s.2, s.1) := by omega
        exact ⟨(s.2, s.1), List.count_pos_iff.mp hc2, Or.inr Prod.mk.eta.symm⟩
    obtain ⟨e₀, he₀, hse⟩ := hex
    rw [countP_ext _ (fun e => decide (sameE e s)) es
      (fun a _ => decide_eq_decide.mpr ⟨sameE_symm, sameE_symm⟩)]
    exact countP_sameE_one es hdis e₀ s he₀ hse
  have hlen : (steps cE.reverse).length = es.length :=
    count_pairing (steps cE.reverse) es (fun s e => decide (sameE s e))
      hAside hBside
  have hlw : 1 ≤ cE.length := List.length_pos.mpr hP.wne
  refine ⟨?_, hP.headw, hP.lastw, hchain, ?_, ?_, hBside⟩
  · have hsl := steps_length cE.reverse
    rw [List.length_reverse] at hsl
    omega
  · rw [List.head?_reverse]
    exact hP.lastw
  · rw [List.getLast?_reverse]
    exact hP.headw

/-! ### The claims about the Eulerian finder -/

/-- The 2-vertex multigraph built by inserting the edge (0, 1) twice. -/
def gdbl : Graph :=
  { n := 2, adj := [[1, 1], [0, 0]],
    used := [[false, false], [false, false]] }

/-- C2 counterexample: the boolean `used` matrix collapses parallel
edges.  The connected multigraph with the edge (0, 1) inserted twice has
every vertex of even adjacency-degree, but the Eulerian run from vertex
0 outputs a sequence of length 2, not `edgeCount + 1 = 3` — the second
copy of the edge is never traversed. -/
theorem euler_multigraph_counterexample :
    buildM 2 [(0, 1), (0, 1)] = .ok gdbl ∧
    (∀ x, x < gdbl.n → (adjOf gdbl x).length % 2 = 0) ∧
    (∀ u w, u < gdbl.n → w < gdbl.n →
      Relation.ReflTransGen (fun a b => b ∈ adjOf gdbl a) u w) ∧
    (euler (resetUsed gdbl) 0 []).2.length ≠
      ([(0, 1), (0, 1)] : List (Nat × Nat)).length + 1 := by
  refine ⟨by rfl, by decide, ?_, by decide⟩
  intro u w hu hw
  have hu' : u < 2 := hu
  have hw' : w < 2 := hw
  interval_cases u <;> interval_cases w <;>
    first
      | exact Relation.ReflTransGen.refl
      | exact Relation.ReflTransGen.single (by decide)

/-- C2 (amended): for a graph built from an insertion list with pairwise
distinct undirected edges, every vertex of even adjacency-degree and the
graph connected, the Eulerian finder started at any vertex `v` after a
usage reset produces a sequence of length `edgeCount + 1` that starts
and ends at `v`, whose reversal is a walk along adjacencies, and that
traverses each inserted edge exactly once in either direction.  (The
unamended claim is refuted by `euler_multigraph_counterexample`: with
parallel edges the boolean usage matrix loses multiplicity.) -/
theorem euler_spec (n : Nat) (es : List (Nat × Nat)) (g gE : Graph)
    (v : Nat) (cE : List Nat)
    (hb : buildM n es = .ok g)
    (hdis : es.Pairwise (fun s t => ¬ sameE s t))
    (heven : ∀ x, x < g.n → (adjOf g x).length % 2 = 0)
    (hconn : ∀ u w, u < g.n → w < g.n →
      Relation.ReflTransGen (fun a b => b ∈ adjOf g a) u w)
    (hv : v < g.n)
    (heq : euler (resetUsed g) v [] = (gE, cE)) :
    cE.length = es.length + 1 ∧ cE.head? = some v ∧ cE.getLast? = some v ∧
    List.Chain' (fun a b => b ∈ adjOf g a) cE.reverse ∧
    (∀ e ∈ es, (steps cE.reverse).countP (fun s => decide (sameE s e)) = 1) := by
  obtain ⟨h1, h2, h3, h4, _, _, h7⟩ := eulerMaster hb hdis heven hconn hv heq
  exact ⟨h1, h2, h3, h4, h7⟩

/-- The object state after the Eulerian run on the triangle: every
off-diagonal usage flag set. -/
def gTriE : Graph :=
  { n := 3, adj := [[1, 2], [0, 2], [0, 1]],
    used := [[false, true, true], [true, false, true], [true, true, false]] }

theorem triangle_conn : ∀ u w, u < triangleG.n → w < triangleG.n →
    Relation.ReflTransGen (fun a b => b ∈ adjOf triangleG a) u w := by
  intro u w hu hw
  have hu' : u < 3 := hu
  have hw' : w < 3 := hw
  interval_cases u <;> interval_cases w <;>
    first
      | exact Relation.ReflTransGen.refl
      | exact Relation.ReflTransGen.single (by decide)

/-- Witness for C2's amended theorem: the triangle run from vertex 0,
whose output is `[0, 2, 1, 0]`. -/
theorem euler_spec_witness :
    ([0, 2, 1, 0] : List Nat).length =
      ([(0, 1), (0, 2), (1, 2)] : List (Nat × Nat)).length + 1 ∧
    ([0, 2, 1, 0] : List Nat).head? = some 0 ∧
    ([0, 2, 1, 0] : List Nat).getLast? = some 0 ∧
    List.Chain' (fun a b => b ∈ adjOf triangleG a)
      ([0, 2, 1, 0] : List Nat).reverse ∧
    (∀ e ∈ ([(0, 1), (0, 2), (1, 2)] : List (Nat × Nat)),
      (steps ([0, 2, 1, 0] : List Nat).reverse).countP
        (fun s => decide (sameE s e)) = 1) :=
  euler_spec 3 [(0, 1), (0, 2), (1, 2)] triangleG gTriE 0 [0, 2, 1, 0]
    (by rfl) (by decide) (by decide) triangle_conn (by decide) (by rfl)

/-! ### The mechanism refinement: `euler` is the spec's `visit` -/

/-- Unfolding equation for `visitLoop` on the empty list. -/
theorem visitLoop_nil (rec : Nat → Graph → List Nat → Graph × List Nat)
    (v : Nat) (g : Graph) (cycle : List Nat) :
    visitLoop rec v [] g cycle = (g, cycle) := rfl

/-- Unfolding equation for `visitLoop` on a nonempty list. -/
theorem visitLoop_cons (rec : Nat → Graph → List Nat → Graph × List Nat)
    (v u : Nat) (rest : List Nat) (g : Graph) (cycle : List Nat) :
    visitLoop rec v (u :: rest) g cycle =
      if usedAt g v u then visitLoop rec v rest g cycle
      else
        match rec u (markUsed g v u) cycle with
        | (g2, c2) => visitLoop rec v rest g2 c2 := rfl

/-- Unfolding equation for `visitAux` at positive fuel. -/
theorem visitAux_succ (fuel v : Nat) (g : Graph) (cycle : List Nat) :
    visitAux (fuel + 1) v g cycle =
      match visitLoop (visitAux fuel) v (adjOf g v) g cycle with
      | (g1, c1) => (g1, c1 ++ [v]) := rfl

theorem euler_eq_visit_loop (fuel : Nat)
    (hIH : ∀ (u : Nat) (g : Graph) (c : List Nat),
      eulerAux fuel u g c = visitAux fuel u g c) (v : Nat) :
    ∀ (ns : List Nat) (g : Graph) (c : List Nat),
      eulerLoop (eulerAux fuel) v ns g c =
        visitLoop (visitAux fuel) v ns g c := by
  intro ns
  induction ns with
  | nil =>
    intro g c
    rw [eulerLoop_nil, visitLoop_nil]
  | cons u rest ih =>
    intro g c
    rw [eulerLoop_cons, visitLoop_cons]
    by_cases h : usedAt g v u
    · rw [if_pos h, if_pos h, ih]
    · rw [if_neg h, if_neg h, hIH]
      rcases hvx : visitAux fuel u (markUsed g v u) c with ⟨g2, c2⟩
      exact ih g2 c2

theorem eulerAux_eq_visitAux : ∀ (fuel v : Nat) (g : Graph) (c : List Nat),
    eulerAux fuel v g c = visitAux fuel v g c := by
  intro fuel
  induction fuel with
  | zero =>
    intro v g c
    rfl
  | succ fuel IH =>
    intro v g c
    rw [eulerAux_succ, visitAux_succ,
      euler_eq_visit_loop fuel IH v (adjOf g v) g c]

/-- C3: the Eulerian finder computes exactly the specification's `visit`
procedure — neighbours taken in insertion order, both directions marked
before the recursive call, the vertex appended post-order — and on an
Eulerian run the result is produced in reverse circuit order: its
reversal is a walk along adjacencies that starts and ends at the start
vertex. -/
theorem euler_postorder_reverse :
    (∀ (fuel v : Nat) (g : Graph) (cycle : List Nat),
      eulerAux fuel v g cycle = visitAux fuel v g cycle) ∧
    (∀ (n : Nat) (es : List (Nat × Nat)) (g gE : Graph) (v : Nat)
      (cE : List Nat),
      buildM n es = .ok g →
      es.Pairwise (fun s t => ¬ sameE s t) →
      (∀ x, x < g.n → (adjOf g x).length % 2 = 0) →
      (∀ u w, u < g.n → w < g.n →
        Relation.ReflTransGen (fun a b => b ∈ adjOf g a) u w) →
      v < g.n →
      euler (resetUsed g) v [] = (gE, cE) →
      cE.reverse.head? = some v ∧ cE.reverse.getLast? = some v ∧
        List.Chain' (fun a b => b ∈ adjOf g a) cE.reverse) := by
  refine ⟨eulerAux_eq_visitAux, ?_⟩
  intro n es g gE v cE hb hdis heven hconn hv heq
  obtain ⟨_, _, _, h4, h5, h6, _⟩ := eulerMaster hb hdis heven hconn hv heq
  exact ⟨h5, h6, h4⟩

/-- Witness for C3: the refinement at fuel 10 on the reset triangle, and
the reversal properties of the concrete output `[0, 2, 1, 0]`. -/
theorem euler_postorder_reverse_witness :
    eulerAux 10 0 (resetUsed triangleG) [] =
      visitAux 10 0 (resetUsed triangleG) [] ∧
    (([0, 2, 1, 0] : List Nat).reverse.head? = some 0 ∧
      ([0, 2, 1, 0] : List Nat).reverse.getLast? = some 0 ∧
      List.Chain' (fun a b => b ∈ adjOf triangleG a)
        ([0, 2, 1, 0] : List Nat).reverse) :=
  ⟨euler_postorder_reverse.1 10 0 (resetUsed triangleG) [],
   euler_postorder_reverse.2 3 [(0, 1), (0, 2), (1, 2)] triangleG gTriE 0
     [0, 2, 1, 0] (by rfl) (by decide) (by decide) triangle_conn (by decide)
     (by rfl)⟩

end AlgiLab
